import Mathlib

/-!
# Verification of the NgIBL AI-assisted artifact generation pipeline

Shallow embedding of the pipeline implemented in `src/lib/ai.ts`
(Completion Provider Adapter), `src/lib/ai-agents.ts` (Planner / Generator /
Validator / Refiner agents and the orchestrator `agentGenerateSimulation`,
including `quickSyntaxCheck`), and `src/lib/ai-simulation.ts` (`extractCode`).

Modelling conventions:
* JavaScript strings are `List Char` / `String`; character indices are `Nat`.
* The external Completion Provider and the JS runtime's `JSON.parse` are
  modelled as oracle parameters (`Except String String` results and a
  `String → Bool` parse-success function respectively): they are external
  collaborators, not code of this repository.
* Defect messages pushed into `errors` arrays are modelled as a structured
  inductive type (`Defect`, `VError`) carrying exactly the data interpolated
  into the original message strings, instead of the formatted strings.
* JS regular-expression operations are modelled by direct string algorithms
  implementing the standard leftmost / greedy / lazy backtracking semantics
  of the concrete patterns appearing in the source; each such definition
  documents the pattern it implements.
-/

namespace NgIBL

/-- The backtick character (string-literal quote recognised by the scanner). -/
def backtick : Char := Char.ofNat 96

/-- The apostrophe (single-quote) character. -/
def squote : Char := Char.ofNat 39

/-- JS `\s` / `String.prototype.trim` whitespace (ASCII part plus NBSP;
the source strings never contain the remaining exotic Unicode spaces). -/
def isJsWs (c : Char) : Bool :=
  c == ' ' || c == '\t' || c == '\n' || c == '\x0d' ||
  c == '\x0b' || c == '\x0c' || c == ' '

/-- `startsWithSeq l p` : `p` is a literal prefix of `l` (JS `startsWith`). -/
def startsWithSeq : List Char → List Char → Bool
  | _, [] => true
  | [], _ :: _ => false
  | a :: as, b :: bs => a == b && startsWithSeq as bs

/-- JS `String.prototype.includes`: `p` occurs as a contiguous substring. -/
def containsSeq : List Char → List Char → Bool
  | [], p => p.isEmpty
  | l@(_ :: rest), p => startsWithSeq l p || containsSeq rest p

/-- JS `String.prototype.indexOf`: first index where `p` occurs. -/
def indexOfSeq : List Char → List Char → Option Nat
  | [], p => if p.isEmpty then some 0 else none
  | l@(_ :: rest), p =>
    if startsWithSeq l p then some 0 else (indexOfSeq rest p).map (· + 1)

/-- Last index at which character `c` occurs (JS `lastIndexOf` on one char). -/
def lastIndexOfChar (c : Char) : List Char → Option Nat
  | [] => none
  | a :: rest =>
    match lastIndexOfChar c rest with
    | some i => some (i + 1)
    | none => if a == c then some 0 else none

/-- JS `String.prototype.trim` on a character list. -/
def trimList (l : List Char) : List Char :=
  ((l.dropWhile isJsWs).reverse.dropWhile isJsWs).reverse

/-- JS `trim` on `String`. -/
def jsTrim (s : String) : String := ⟨trimList s.data⟩

/-- Convenience: `containsSeq` lifted to `String`. -/
def strContains (s : String) (p : String) : Bool := containsSeq s.data p.data

-- ─── Local Syntax Validator: quickSyntaxCheck (ai-agents.ts) ───────────

/-- `const pairs = { '{': '}', '[': ']', '(': ')' }` of `quickSyntaxCheck`
(`pairs c` is the JS lookup `pairs[c]`, `none` when `!(c in pairs)`). -/
def pairs (c : Char) : Option Char :=
  if c == '{' then some '}'
  else if c == '[' then some ']'
  else if c == '(' then some ')'
  else none

/-- Closing-delimiter test `ch === '}' || ch === ']' || ch === ')'`. -/
def isCloser (c : Char) : Bool := c == '}' || c == ']' || c == ')'

/-- Quote test `ch === '"' || ch === "'" || ch === '`'` of the scanner. -/
def isQuote (c : Char) : Bool := c == '"' || c == squote || c == backtick

/-- Mutable locals of the character loop in `quickSyntaxCheck`:
`stack` (head = top of the JS array), `inString`, `stringChar`, and
`prev` (`code[i-1]`; the JS initial value `''` is modelled as `' '`,
equivalent because `prev` is only ever compared against `'\\'`). -/
structure ScanSt where
  stack : List Char
  inString : Bool
  stringChar : Char
  prev : Char
deriving DecidableEq, Repr

/-- Initial scanner state (empty stack, outside any string literal). -/
def initScanSt : ScanSt := ⟨[], false, ' ', ' '⟩

/-- The character loop of `quickSyntaxCheck` (ai-agents.ts), faithful to the
source: inside a string literal a matching unescaped quote closes it and
everything else is skipped; outside, a quote opens a literal, an opening
delimiter pushes its closer, a closing delimiter pops (the JS `stack.pop()`
in the failure test has already mutated the stack when the error is
reported) and a mismatch or pop-from-empty stops the scan (`break`) with
the offending character and its position. -/
def scanChars : List Char → Nat → ScanSt → Option (Char × Nat) × ScanSt
  | [], _, st => (none, st)
  | ch :: rest, i, st =>
    if st.inString then
      if ch == st.stringChar && st.prev != '\\' then
        scanChars rest (i + 1) { st with inString := false, prev := ch }
      else
        scanChars rest (i + 1) { st with prev := ch }
    else if isQuote ch then
      scanChars rest (i + 1) { st with inString := true, stringChar := ch, prev := ch }
    else
      match pairs ch with
      | some closer =>
        scanChars rest (i + 1) { st with stack := closer :: st.stack, prev := ch }
      | none =>
        if isCloser ch then
          match st.stack with
          | [] => (some (ch, i), { st with prev := ch })
          | top :: s₀ =>
            if top == ch then
              scanChars rest (i + 1) { st with stack := s₀, prev := ch }
            else
              (some (ch, i), { st with stack := s₀, prev := ch })
        else
          scanChars rest (i + 1) { st with prev := ch }

/-- Structured rendering of the strings pushed into `errors` by
`quickSyntaxCheck`:
* `unmatched c i` = `` `Unmatched '<c>' at position <i>` ``,
* `unclosed cs`  = `` `Unclosed brackets: expected <cs
  joined>` `` (`cs` in the order produced by `stack.reverse()`, i.e. most
  recently opened first, which is head-first for our stack),
* `importNotAllowed` = the import-statement defect string,
* `missingReturn` = the missing-return defect string. -/
inductive Defect
  | unmatched (c : Char) (pos : Nat)
  | unclosed (expected : List Char)
  | importNotAllowed
  | missingReturn
deriving DecidableEq, Repr

/-- `quickSyntaxCheck` (ai-agents.ts): delimiter scan, then the unclosed-stack
defect, then the import-statement check, then the return-statement check,
in the order the source pushes them. -/
def quickSyntaxCheck (code : String) : List Defect :=
  let cs := code.data
  let r := scanChars cs 0 initScanSt
  (match r.1 with
   | some (c, i) => [Defect.unmatched c i]
   | none => []) ++
  (if r.2.stack.isEmpty then [] else [Defect.unclosed r.2.stack]) ++
  (if strContains code "import " && !strContains code "// import" then
    [Defect.importNotAllowed] else []) ++
  (if !strContains code "return" && !strContains code "return(" then
    [Defect.missingReturn] else [])

-- ─── Reference view of the delimiter scan (for stating claims) ─────────

/-- The sequence of delimiter characters that `scanChars` processes outside
string literals, with their positions: the same in-string automaton as the
scanner, keeping only the bracket characters it acts on. -/
def delimEvents : List Char → Nat → Bool → Char → Char → List (Char × Nat)
  | [], _, _, _, _ => []
  | ch :: rest, i, inString, sc, prev =>
    if inString then
      if ch == sc && prev != '\\' then delimEvents rest (i + 1) false sc ch
      else delimEvents rest (i + 1) true sc ch
    else if isQuote ch then delimEvents rest (i + 1) true ch ch
    else if (pairs ch).isSome || isCloser ch then
      (ch, i) :: delimEvents rest (i + 1) inString sc ch
    else delimEvents rest (i + 1) inString sc ch

/-- The pure stack machine of step 3 of the scan, on the extracted delimiter
events: open pushes the matching closer, close pops on match and stops with
the offending event on mismatch or empty stack (the mismatching pop has
already removed the top, as in the source). -/
def bracketRun : List (Char × Nat) → List Char → Option (Char × Nat) × List Char
  | [], stack => (none, stack)
  | (ch, i) :: rest, stack =>
    match pairs ch with
    | some closer => bracketRun rest (closer :: stack)
    | none =>
      if isCloser ch then
        match stack with
        | [] => (some (ch, i), [])
        | top :: s₀ => if top == ch then bracketRun rest s₀ else (some (ch, i), s₀)
      else bracketRun rest stack

/-- Position-free version of `bracketRun`: `some` final stack, or `none` on
an unmatched closing delimiter. -/
def bracketRunC : List Char → List Char → Option (List Char)
  | [], stack => some stack
  | ch :: rest, stack =>
    match pairs ch with
    | some closer => bracketRunC rest (closer :: stack)
    | none =>
      if isCloser ch then
        match stack with
        | [] => none
        | top :: s₀ => if top == ch then bracketRunC rest s₀ else none
      else bracketRunC rest stack

/-- Specification-level notion of a balanced delimiter sequence (a Dyck word
over the three bracket pairs). -/
inductive Balanced : List Char → Prop
  | nil : Balanced []
  | wrap {o c : Char} {l : List Char} :
      pairs o = some c → Balanced l → Balanced (o :: l ++ [c])
  | append {l₁ l₂ : List Char} :
      Balanced l₁ → Balanced l₂ → Balanced (l₁ ++ l₂)

/-- A delimiter sequence with exactly one unmatched closing delimiter:
removing that one closer leaves a balanced sequence. -/
def OneUnmatchedCloser (l : List Char) : Prop :=
  ∃ l₁ c l₂, l = l₁ ++ c :: l₂ ∧ isCloser c = true ∧ Balanced (l₁ ++ l₂)

/-- From an in-string scanner state with string character `sc` and previous
character `prev`, the scan never leaves the string literal while consuming
`l` (no unescaped occurrence of `sc`). -/
def staysInString : List Char → Char → Char → Bool
  | [], _, _ => true
  | ch :: rest, sc, prev =>
    if ch == sc && prev != '\\' then false else staysInString rest sc ch

-- ─── Agents and orchestrator (ai-agents.ts) ────────────────────────────

/-- `type: 'REACT' | 'GEOGEBRA'` of the agent pipeline (the extractor in
ai-simulation.ts spells the second kind `'GEOGEBRA_API'`). -/
inductive SimType
  | REACT
  | GEOGEBRA
deriving DecidableEq, Repr

/-- JS `String.prototype.split('\n')`. -/
def splitNl : List Char → List (List Char)
  | [] => [[]]
  | '\n' :: rest => [] :: splitNl rest
  | c :: rest =>
    match splitNl rest with
    | line :: more => (c :: line) :: more
    | [] => [[c]]

/-- JS `line.replace(/^\d+\.\s*/, '')`: if the line starts with one or more
digits followed by a literal dot, remove them and any following whitespace;
otherwise leave the line unchanged. -/
def stripNumPrefix (l : List Char) : List Char :=
  let ds := l.takeWhile Char.isDigit
  if ds.isEmpty then l
  else
    match l.drop ds.length with
    | '.' :: rest => rest.dropWhile isJsWs
    | _ => l

/-- JS `/^\d+\./.test(line.trim())`. -/
def numberedLineTest (l : List Char) : Bool :=
  let t := trimList l
  let ds := t.takeWhile Char.isDigit
  !ds.isEmpty && startsWithSeq (t.drop ds.length) ['.']

/-- Result of one Completion Provider call: the returned text, or the thrown
error (the provider is an external collaborator, modelled as an oracle). -/
abbrev ProviderResult := Except String String

/-- `'Generate the complete simulation based on the prompt'`, the fallback
plan step of `plannerAgent`. -/
def defaultPlanStep : String := "Generate the complete simulation based on the prompt"

/-- `plannerAgent` (ai-agents.ts): numbered lines of the provider response
become plan steps (test `/^\d+\./` on the trimmed line, then strip the
number prefix from the original line and trim, then drop empty steps);
an empty extraction or a provider error falls back to the single default
step. Message assembly and logging are not modelled (no claim depends on
them). -/
def plannerAgent (resp : ProviderResult) : List String :=
  match resp with
  | .error _ => [defaultPlanStep]
  | .ok response =>
    let steps := (((splitNl response.data).filter numberedLineTest).map
        (fun line => trimList (stripNumPrefix line))).filter
        (fun s => s.length > 0)
    if steps.isEmpty then [defaultPlanStep]
    else steps.map (fun l => (⟨l⟩ : String))

/-- Structured rendering of the strings in a validator verdict's `errors`:
* `invalidJson` = `'Invalid JSON format'`,
* `localSyntax d` = the corresponding `quickSyntaxCheck` defect string,
* `semantic s` = a defect line parsed from the AI validator response. -/
inductive VError
  | invalidJson
  | localSyntax (d : Defect)
  | semantic (s : String)
deriving DecidableEq, Repr

/-- `{ valid: boolean; errors: string[] }` returned by `validatorAgent`. -/
structure Verdict where
  valid : Bool
  errors : List VError
deriving DecidableEq, Repr

/-- Parsing of a successful semantic-validation response in `validatorAgent`:
the literal acceptance token `VALID` (trimmed, upper-cased comparison), or
the non-empty non-`#` lines with their number prefixes stripped; `valid` is
`errors.length === 0`. -/
def parseValidatorResponse (response : String) : Verdict :=
  if (trimList response.data).map Char.toUpper == "VALID".data then ⟨true, []⟩
  else
    let errors := ((splitNl response.data).filter
        (fun line => !(trimList line).isEmpty && !startsWithSeq line ['#'])).map
        (fun line => VError.semantic ⟨trimList (stripNumPrefix line)⟩)
    ⟨errors.isEmpty, errors⟩

/-- `validatorAgent` (ai-agents.ts). For `GEOGEBRA` the only check is
`JSON.parse` success (`parseOk`, the external runtime's parser). For
`REACT`, `quickSyntaxCheck` runs first; only when it reports no defect is
the Completion Provider called (`semResp` is that call's outcome), and a
provider error is caught and turned into acceptance (fail-open). The
second component instruments the number of Completion Provider calls the
agent performs (0 or 1); the verdict component is exactly the source's
return value. -/
def validatorAgent (parseOk : String → Bool) (semResp : ProviderResult)
    (code : String) (type : SimType) : Verdict × Nat :=
  match type with
  | .GEOGEBRA =>
    if parseOk code then (⟨true, []⟩, 0)
    else (⟨false, [VError.invalidJson]⟩, 0)
  | .REACT =>
    let syntaxErrors := quickSyntaxCheck code
    if !syntaxErrors.isEmpty then
      (⟨false, syntaxErrors.map VError.localSyntax⟩, 0)
    else
      match semResp with
      | .error _ => (⟨true, []⟩, 1)
      | .ok response => (parseValidatorResponse response, 1)

/-- `MAX_ATTEMPTS = 3` of the orchestrator. -/
def MAX_ATTEMPTS : Nat := 3

/-- The outcomes of the external Completion Provider calls (and of the
runtime JSON parser) during one orchestrator run: the planner call, the
generator call, and the validator / refiner calls of each retry cycle,
indexed by the value of `ctx.attempts` at the moment of the call. -/
structure Oracle where
  planner : ProviderResult
  generator : ProviderResult
  validator : Nat → ProviderResult
  refiner : Nat → ProviderResult
  parseOk : String → Bool

/-- The validate-and-refine `while (ctx.attempts < MAX_ATTEMPTS)` loop of
`agentGenerateSimulation`, as a recursion on the remaining iterations
(`fuel = MAX_ATTEMPTS - attempts` at entry). A valid verdict returns the
current code with the current attempt count; otherwise `ctx.attempts`
is incremented and the refiner runs (its raw output re-extracted), a
refiner error propagating as in the source (no catch); fuel exhaustion is
the loop falling through to the best-effort return. -/
def agentLoop (extract : String → SimType → String) (type : SimType)
    (orc : Oracle) : String → Nat → Nat → Except String (String × Nat)
  | code, attempts, 0 => .ok (code, attempts)
  | code, attempts, fuel + 1 =>
    if (validatorAgent orc.parseOk (orc.validator attempts) code type).1.valid then
      .ok (code, attempts)
    else
      match orc.refiner attempts with
      | .error e => .error e
      | .ok raw => agentLoop extract type orc (extract raw type) (attempts + 1) fuel

/-- `AgentResult` (`duration` is wall-clock time measurement, outside the
model). -/
structure AgentResult where
  code : String
  plan : List String
  attempts : Nat
deriving DecidableEq, Repr

/-- `agentGenerateSimulation` (ai-agents.ts): plan (planner failures degrade
inside `plannerAgent`), generate (a generator failure aborts the run: no
catch), extract, then the validate/refine loop; `extract` is the
`extractCode` function passed in by the caller, a parameter as in the
source. -/
def agentGenerateSimulation (extract : String → SimType → String)
    (type : SimType) (orc : Oracle) : Except String AgentResult :=
  let plan := plannerAgent orc.planner
  match orc.generator with
  | .error e => .error e
  | .ok rawCode =>
    match agentLoop extract type orc (extract rawCode type) 0 MAX_ATTEMPTS with
    | .error e => .error e
    | .ok (code, attempts) => .ok ⟨code, plan, attempts⟩

-- ─── Completion Provider Adapter (ai.ts) ───────────────────────────────

/-- `AIProvider` of ai.ts. -/
inductive AIProvider
  | gemini
  | deepseek
  | qwen
  | ollama
deriving DecidableEq, Repr

/-- The lower-case provider identifier string. -/
def providerName : AIProvider → String
  | .gemini => "gemini"
  | .deepseek => "deepseek"
  | .qwen => "qwen"
  | .ollama => "ollama"

/-- `provider.charAt(0).toUpperCase() + provider.slice(1)`. -/
def capitalizeJs (s : String) : String :=
  match s.data with
  | [] => ⟨[]⟩
  | c :: rest => ⟨c.toUpper :: rest⟩

/-- One HTTP response from an upstream completion endpoint: `ok` mirrors
`response.ok`; `errorText` is `await response.text()` read on failure;
`content` is the text extracted from the success payload
(`data.choices[0].message.content`, or for the Gemini REST fallback
`data.candidates[0].content.parts[0].text`). -/
structure ChatResponse where
  ok : Bool
  errorText : String
  content : String
deriving DecidableEq, Repr

/-- `callOpenAICompatible` (ai.ts): a non-ok response throws
`` `<label> API Error: <raw body>` ``, an ok response returns the payload
content verbatim. URL construction, headers and image injection do not
affect the returned value and are not modelled. -/
def callOpenAICompatible (providerLabel : String) (resp : ChatResponse) :
    Except String String :=
  if !resp.ok then .error (providerLabel ++ " API Error: " ++ resp.errorText)
  else .ok resp.content

/-- Outcomes of the three Gemini back ends ai.ts can reach: the
`@google/genai` SDK call (`newSdk`; on success the payload's optional
`text` field, `response.text ?? ''` in the source), the REST fallback used
when that SDK throws, and the legacy `@google/generative-ai` call whose
errors propagate uncaught. -/
structure GeminiBackend where
  newSdk : Except String (Option String)
  rest : ChatResponse
  oldSdk : Except String String
deriving Repr

/-- `generateContentViaRestAPI` (ai.ts): non-ok throws
`` `Gemini 3 REST API Error: <raw body>` ``, ok returns the payload text. -/
def generateContentViaRestAPI (resp : ChatResponse) : Except String String :=
  if !resp.ok then .error ("Gemini 3 REST API Error: " ++ resp.errorText)
  else .ok resp.content

/-- `generateContent` (ai.ts), with the network modelled by oracles:
DeepSeek / Qwen / Ollama go through `callOpenAICompatible` with the
capitalized provider label; Gemini dispatches on the model name
(`gemini-3` / `gemini-2.0` select the new SDK whose missing `text` field
becomes `''` and whose SDK errors fall back to the REST API; other models
use the legacy SDK whose errors propagate). -/
def generateContent (provider : AIProvider) (modelOpt : Option String)
    (oai : ChatResponse) (gem : GeminiBackend) : Except String String :=
  match provider with
  | .deepseek => callOpenAICompatible (capitalizeJs (providerName .deepseek)) oai
  | .qwen => callOpenAICompatible (capitalizeJs (providerName .qwen)) oai
  | .ollama => callOpenAICompatible (capitalizeJs (providerName .ollama)) oai
  | .gemini =>
    let modelName := modelOpt.getD "gemini-1.5-flash"
    if strContains modelName "gemini-3" || strContains modelName "gemini-2.0" then
      match gem.newSdk with
      | .ok textOpt => .ok (textOpt.getD "")
      | .error _ => generateContentViaRestAPI gem.rest
    else gem.oldSdk

-- ─── Artifact Extractor / Normalizer: extractCode (ai-simulation.ts) ───

/-- The ten-character literal `"commands"` (quotes included) of the pattern
`/\{[\s\S]*"commands"[\s\S]*\}/`. -/
def commandsPat : List Char := '"' :: "commands".data ++ ['"']

/-- After a candidate opening brace: some occurrence of `"commands"`
followed (at or after its end) by a `'}'`. -/
def commandsThenBrace : List Char → Bool
  | [] => false
  | l@(_ :: rest) =>
    (startsWithSeq l commandsPat && (l.drop commandsPat.length).contains '}') ||
    commandsThenBrace rest

/-- First index of a `'{'` from which the rest of the pattern can match. -/
def geoFirstBrace : List Char → Nat → Option Nat
  | [], _ => none
  | c :: rest, i =>
    if c == '{' && commandsThenBrace rest then some i
    else geoFirstBrace rest (i + 1)

/-- `text.match(/\{[\s\S]*"commands"[\s\S]*\}/)` :
leftmost-greedy semantics of the concrete pattern: the match starts at the
first `'{'` that is followed by `"commands"` and then a `'}'`, and the two
greedy `[\s\S]*` make it extend to the last `'}'` of the whole string. -/
def geoMatch (cs : List Char) : Option (List Char) :=
  match geoFirstBrace cs 0 with
  | none => none
  | some i =>
    match lastIndexOfChar '}' cs with
    | none => none
    | some k => some ((cs.drop i).take (k - i + 1))

/-- One global replace `.replace(/,\s*<closer>/g, '<closer>')` as a single
left-to-right pass: `pend` buffers a candidate match (a comma and the
following whitespace, most recent first); reaching the closer drops the
buffered characters and keeps the closer, anything else flushes the buffer
unchanged (a new comma restarts a candidate, matching the regex engine
retrying at the later comma). -/
def rcRun (closeCh : Char) : List Char → List Char → List Char
  | [], pend => pend.reverse
  | c :: rest, [] =>
    if c == ',' then rcRun closeCh rest [',']
    else c :: rcRun closeCh rest []
  | c :: rest, pend@(_ :: _) =>
    if c == closeCh then closeCh :: rcRun closeCh rest []
    else if isJsWs c then rcRun closeCh rest (c :: pend)
    else if c == ',' then pend.reverse ++ rcRun closeCh rest [',']
    else pend.reverse ++ c :: rcRun closeCh rest []

/-- The trailing-comma repair:
`.replace(/,\s*}/g, '}').replace(/,\s*]/g, ']')`. -/
def fixCommas (l : List Char) : List Char := rcRun ']' (rcRun '}' l []) []

/-- Three backticks, the fence marker. -/
def tick3 : List Char := [backtick, backtick, backtick]

/-- The language words of the fence patterns, in the source's alternation
order (they are pairwise prefix-incompatible, so at most one matches). -/
def fenceLangs : List (List Char) :=
  ["jsx".data, "tsx".data, "javascript".data, "typescript".data, "react".data]

/-- Attempt `/```(?:jsx|tsx|javascript|typescript|react)?\s*\n([\s\S]*?)```/`
at this position: the fence marker, the language word when one literally
follows (if a language word follows but the rest fails, the empty
alternative also fails, since a letter is not whitespace), then `\s*\n`
(greedy: the group starts after the last newline of the whitespace run —
if the run has no newline this position cannot match), then the lazy group
up to the first following fence marker. -/
def fenceTryHere (s : List Char) : Option (List Char) :=
  if startsWithSeq s tick3 then
    let afterTicks := s.drop 3
    let afterLang :=
      match fenceLangs.find? (fun L => startsWithSeq afterTicks L) with
      | some L => afterTicks.drop L.length
      | none => afterTicks
    let run := afterLang.takeWhile isJsWs
    match lastIndexOfChar '\n' run with
    | none => none
    | some r =>
      let groupStart := afterLang.drop (r + 1)
      match indexOfSeq groupStart tick3 with
      | some t => some (groupStart.take t)
      | none => none
  else none

/-- Leftmost match of the fence pattern: group content of the first
position where `fenceTryHere` succeeds. -/
def fenceFind : List Char → Option (List Char)
  | [] => none
  | l@(_ :: rest) =>
    match fenceTryHere l with
    | some g => some g
    | none => fenceFind rest

/-- Step 1 of the REACT path: when the fence pattern matches, keep only the
trimmed group content. -/
def fenceStep (cs : List Char) : List Char :=
  match fenceFind cs with
  | some g => trimList g
  | none => cs

/-- The entry marker `'export default function'`. -/
def exportMarker : List Char := "export default function".data

/-- The guard of step 2 of the REACT path: the entry marker occurs at a
positive index and the trimmed text before it looks like prose (contains a
sentence dot, is longer than 50 characters, and contains neither
`'const '` nor `'function '`). -/
def leadingProseCond (cs : List Char) : Bool :=
  match indexOfSeq cs exportMarker with
  | some i =>
    if i > 0 then
      let before := trimList (cs.take i)
      before.contains '.' && decide (before.length > 50) &&
        !containsSeq before "const ".data && !containsSeq before "function ".data
    else false
  | none => false

/-- Step 2 of the REACT path: strip the leading prose when the guard holds
(`text = text.substring(exportIdx)`). -/
def step2 (cs : List Char) : List Char :=
  if leadingProseCond cs then cs.drop ((indexOfSeq cs exportMarker).getD 0) else cs

/-- The brace-depth loop of step 3 (`i` is the absolute position, `depth`
the JS counter): every `'{'` increments and every `'}'` decrements the
depth, the first position where the depth returns to zero is the computed
closing boundary. There is no string-literal handling in this loop. -/
def findCloseBrace : List Char → Nat → Int → Option Nat
  | [], _, _ => none
  | ch :: rest, i, depth =>
    let d := if ch == '{' then depth + 1 else depth
    if ch == '}' then
      if d - 1 = 0 then some i else findCloseBrace rest (i + 1) (d - 1)
    else findCloseBrace rest (i + 1) d

/-- The `lastBrace` of step 3: the depth loop started at the first `'{'` at
or after the entry marker (`text.indexOf('{', text.indexOf(marker))`). -/
def step3Boundary (cs : List Char) : Option Nat :=
  match indexOfSeq cs exportMarker with
  | none => none
  | some mi =>
    match (indexOfSeq (cs.drop mi) ['{']).map (· + mi) with
    | none => none
    | some startIdx => findCloseBrace (cs.drop startIdx) startIdx 0

/-- The guard of step 3: marker present, boundary found before the final
position, and the trimmed text after the boundary longer than 10. -/
def trailingProseCond (cs : List Char) : Bool :=
  containsSeq cs exportMarker &&
  (match step3Boundary cs with
   | none => false
   | some lastBrace =>
     decide (lastBrace + 1 < cs.length) &&
     decide ((trimList (cs.drop (lastBrace + 1))).length > 10))

/-- Step 3 of the REACT path: truncate at the computed closing boundary when
the guard holds (`text = text.substring(0, lastBrace + 1)`). -/
def step3 (cs : List Char) : List Char :=
  if trailingProseCond cs then cs.take (((step3Boundary cs).getD 0) + 1) else cs

/-- One global multiline replace `/^```(?:jsx|...)?\s*/gm` → `''`: at each
line start of the original string, remove the fence marker, the recognised
language word if one follows, and the following whitespace run; scanning
resumes right after the removed segment (a position that is a line start
exactly when the last removed character was a newline). `fuel ≥ length`
makes the recursion total; each match consumes at least the three
backticks. -/
def stripFenceOpensAux : Nat → List Char → Bool → List Char
  | 0, l, _ => l
  | _ + 1, [], _ => []
  | fuel + 1, l@(c :: rest), atStart =>
    if atStart && startsWithSeq l tick3 then
      let afterTicks := l.drop 3
      let afterLang :=
        match fenceLangs.find? (fun L => startsWithSeq afterTicks L) with
        | some L => afterTicks.drop L.length
        | none => afterTicks
      let run := afterLang.takeWhile isJsWs
      stripFenceOpensAux fuel (afterLang.drop run.length) (run.getLast? == some '\n')
    else c :: stripFenceOpensAux fuel rest (c == '\n')

/-- Wrapper for the `/^```(?:jsx|...)?\s*/gm` replace. -/
def stripFenceOpens (l : List Char) : List Char := stripFenceOpensAux l.length l true

/-- One global multiline replace `/```\s*$/gm` → `''`: a fence marker
followed by whitespace reaching the end of the string is removed entirely
with that whitespace; one whose whitespace run contains a newline is
removed up to (but not including) the last such newline (`$` matches
before it); otherwise the position does not match. -/
def stripFenceClosesAux : Nat → List Char → List Char
  | 0, l => l
  | _ + 1, [] => []
  | fuel + 1, l@(c :: rest) =>
    if startsWithSeq l tick3 then
      let run := (l.drop 3).takeWhile isJsWs
      if ((l.drop 3).drop run.length).isEmpty then []
      else
        match lastIndexOfChar '\n' run with
        | some v => stripFenceClosesAux fuel (l.drop (3 + v))
        | none => c :: stripFenceClosesAux fuel rest
    else c :: stripFenceClosesAux fuel rest

/-- Wrapper for the `/```\s*$/gm` replace. -/
def stripFenceCloses (l : List Char) : List Char := stripFenceClosesAux l.length l

/-- Tail `;?\s*$` of the import-line pattern after the closing quote: an
optional semicolon (greedily taken; if the tail then fails, retrying
without it cannot succeed since the semicolon is not whitespace), then
whitespace up to the end of the string, or up to (not including) the last
newline of the whitespace run; returns the number of characters consumed. -/
def importTailCheck (s : List Char) : Option Nat :=
  let core := fun (t : List Char) (base : Nat) =>
    let run := t.takeWhile isJsWs
    if ((t.drop run.length).isEmpty) then some (base + run.length)
    else
      match lastIndexOfChar '\n' run with
      | some v => some (base + v)
      | none => none
  match s with
  | ';' :: t => core t 1
  | _ => core s 0

/-- `.*?['"];?\s*$` after the opening quote: lazily find a closing quote
(single or double, not necessarily the opener — the source's second
character class accepts either) on the same line (`.` does not cross
newlines) whose tail matches; consumed count from after the opening
quote to the end of the whole match. -/
def importAfterQuote : List Char → Option Nat
  | [] => none
  | c :: t =>
    if c == '\n' then none
    else if c == '"' || c == squote then
      match importTailCheck t with
      | some k => some (1 + k)
      | none => (importAfterQuote t).map (1 + ·)
    else (importAfterQuote t).map (1 + ·)

/-- `\s+['"]...` after a candidate `from`: at least one whitespace
character (greedy; an opening quote cannot occur inside the whitespace
run, so no backtracking into `\s+` arises), an opening quote, then
`importAfterQuote`. -/
def importFromCont (s : List Char) : Option Nat :=
  let run := s.takeWhile isJsWs
  if run.isEmpty then none
  else
    match s.drop run.length with
    | q :: t =>
      if q == '"' || q == squote then
        (importAfterQuote t).map (run.length + 1 + ·)
      else none
    | [] => none

/-- `[\s\S]*?from\s+...`: lazily find the first occurrence of `from` whose
continuation succeeds; total consumed from this position. -/
def importFromSearch : List Char → Option Nat
  | [] => none
  | l@(_ :: rest) =>
    if startsWithSeq l "from".data then
      match importFromCont (l.drop 4) with
      | some k => some (4 + k)
      | none => (importFromSearch rest).map (1 + ·)
    else (importFromSearch rest).map (1 + ·)

/-- Length of a match of `/^import\s+[\s\S]*?from\s+['"].*?['"];?\s*$/m`
starting at this (line-start) position, or `none`. `import` must be
followed by at least one whitespace character; `from` cannot begin inside
that whitespace run, so the lazy search starts after it. -/
def importMatchLen (s : List Char) : Option Nat :=
  if startsWithSeq s "import".data then
    let afterKw := s.drop 6
    let run := afterKw.takeWhile isJsWs
    if run.isEmpty then none
    else (importFromSearch (afterKw.drop run.length)).map (6 + run.length + ·)
  else none

/-- The global replace of import-declaration lines (step 4 of the REACT
path): remove each match found at a line start, resuming after it. -/
def stripImportLinesAux : Nat → List Char → Bool → List Char
  | 0, l, _ => l
  | _ + 1, [], _ => []
  | fuel + 1, l@(c :: rest), atStart =>
    if atStart then
      match importMatchLen l with
      | some k =>
        stripImportLinesAux fuel (l.drop k) ((l.take k).getLast? == some '\n')
      | none => c :: stripImportLinesAux fuel rest (c == '\n')
    else c :: stripImportLinesAux fuel rest (c == '\n')

/-- Wrapper for the import-line replace. -/
def stripImportLines (l : List Char) : List Char := stripImportLinesAux l.length l true

/-- The complete REACT path of `extractCode` on already-trimmed text:
fence extraction, leading-prose strip, trailing-prose strip, then the
final cleanup (fence-marker removals, import-line removal, trim). -/
def reactSteps (cs : List Char) : List Char :=
  trimList (stripImportLines (stripFenceCloses (stripFenceOpens
    (step3 (step2 (fenceStep cs))))))

/-- `extractCode` (ai-simulation.ts). `parseOk` is the runtime `JSON.parse`
success oracle (an external collaborator). For the command-list dialect:
first pattern match, strict parse, trailing-comma repair and re-parse,
raw trimmed text as last resort; for the component dialect the four REACT
steps. Total: always returns a string. -/
def extractCode (parseOk : String → Bool) (raw : String) (type : SimType) : String :=
  let text := trimList raw.data
  match type with
  | .GEOGEBRA =>
    match geoMatch text with
    | some m =>
      if parseOk ⟨m⟩ then ⟨m⟩
      else
        let fixed := fixCommas m
        if parseOk ⟨fixed⟩ then ⟨fixed⟩ else ⟨text⟩
    | none => ⟨text⟩
  | .REACT => ⟨reactSteps text⟩

-- ─── Auxiliary predicates and sample inputs used in the theorems ───────

/-- Count of opening delimiters in a delimiter sequence. -/
def opensCount (l : List Char) : Nat := l.countP (fun c => (pairs c).isSome)

/-- Count of closing delimiters in a delimiter sequence. -/
def closesCount (l : List Char) : Nat := l.countP (fun c => isCloser c)

/-- Is this defect a positional `Unmatched '<c>' at position <i>` defect? -/
def isUnmatchedDefect : Defect → Bool
  | .unmatched _ _ => true
  | _ => false

/-- Does any line start of `l` carry a match of the import-line pattern?
(The same walk as `stripImportLinesAux`, detecting instead of removing.) -/
def hasImportLineAux : Nat → List Char → Bool → Bool
  | 0, _, _ => false
  | _ + 1, [], _ => false
  | fuel + 1, l@(c :: rest), atStart =>
    if atStart && (importMatchLen l).isSome then true
    else hasImportLineAux fuel rest (c == '\n')

/-- Wrapper: any import-line match at a line start of `l`. -/
def hasImportLine (l : List Char) : Bool := hasImportLineAux l.length l true

/-- The brace skeleton of a character: braces kept, everything else mapped
to a blank. Two strings with the same skeleton have their braces at the
same positions. -/
def braceOnly (c : Char) : Char := if c == '{' || c == '}' then c else ' '

/-- Modelled from the spec: §4.2 describes the closing-boundary search as
"depth-counting brace characters while correctly skipping characters
inside quoted string literals (respecting escape sequences for `'`, `\"`,
and backtick-quoted strings)". This is that search: the same depth count
as `findCloseBrace`, plus the string-literal automaton of the spec's
description (which the source loop does not have). -/
def findCloseBraceSkippingStrings :
    List Char → Nat → Int → Bool → Char → Char → Option Nat
  | [], _, _, _, _, _ => none
  | ch :: rest, i, depth, inString, sc, prev =>
    if inString then
      if ch == sc && prev != '\\' then
        findCloseBraceSkippingStrings rest (i + 1) depth false sc ch
      else findCloseBraceSkippingStrings rest (i + 1) depth true sc ch
    else if isQuote ch then
      findCloseBraceSkippingStrings rest (i + 1) depth true ch ch
    else
      let d := if ch == '{' then depth + 1 else depth
      if ch == '}' then
        if d - 1 = 0 then some i
        else findCloseBraceSkippingStrings rest (i + 1) (d - 1) inString sc ch
      else findCloseBraceSkippingStrings rest (i + 1) d inString sc ch

/-- Modelled from the spec: the `lastBrace` of step 3 as §4.2 describes it,
using the string-skipping depth count instead of the source's plain one. -/
def step3BoundarySpec (cs : List Char) : Option Nat :=
  match indexOfSeq cs exportMarker with
  | none => none
  | some mi =>
    match (indexOfSeq (cs.drop mi) ['{']).map (· + mi) with
    | none => none
    | some startIdx =>
      findCloseBraceSkippingStrings (cs.drop startIdx) startIdx 0 false ' ' ' '

/-- Sample component source whose function body opens a string literal
containing a closing brace:
`export default function A() { let s = "}"; return 1 } trailing prose that is long enough!!`
(built character-wise to keep braces out of string literals). -/
def braceInStringSample : List Char :=
  "export default function A() ".data ++ ['{'] ++ " let s = ".data ++
  ['"', '}', '"'] ++ "; return 1 ".data ++ ['}'] ++
  " trailing prose that is long enough!!".data

/-- Sample raw model output whose import line hides the token `function `
before the entry marker:
`import { function } from 'x';` · newline · fifty-plus characters of
prose · the component. After the first extraction pass removes the import
line, the remaining prose qualifies for the leading-prose strip, so a
second pass changes the text again. -/
def proseAfterImportSample : List Char :=
  "import ".data ++ ['{'] ++ " function ".data ++ ['}'] ++ " from ".data ++
  [squote, 'x', squote] ++ ";\n".data ++
  "This prose sentence is long enough to exceed fifty characters total. ".data ++
  "export default function A() ".data ++ ['{'] ++ " return 1 ".data ++ ['}']

/-- A minimal command-list candidate `{"commands":[]}` (built character-wise). -/
def geoCmdSample : String :=
  ⟨['{', '"', 'c', 'o', 'm', 'm', 'a', 'n', 'd', 's', '"', ':', '[', ']', '}']⟩

/-- An already-clean component source
`export default function A() { return 1 }` (built character-wise). -/
def cleanComponentSample : String :=
  ⟨"export default function A() ".data ++ ['{'] ++ " return 1 ".data ++ ['}']⟩

/-- The candidate held in `ctx.code` at the start of loop iteration `i` of a
run whose generator produced `raw` and whose refiner produced `refOut j`
at iteration `j`: the extracted generator output, then the extracted
refiner outputs. -/
def candSeq (extract : String → SimType → String) (type : SimType)
    (raw : String) (refOut : Nat → String) : Nat → String
  | 0 => extract raw type
  | i + 1 => extract (refOut i) type

-- ═══ Theorems ══════════════════════════════════════════════════════════

-- ─── Shared helper lemmas ──────────────────────────────────────────────

lemma startsWithSeq_self (l : List Char) : startsWithSeq l l = true := by
  induction l with
  | nil => rfl
  | cons c rest ih => simp [startsWithSeq, ih]

lemma containsSeq_self (p : List Char) : containsSeq p p = true := by
  cases p with
  | nil => rfl
  | cons c rest => simp [containsSeq, startsWithSeq_self]

lemma containsSeq_append_self (l p : List Char) :
    containsSeq (l ++ p) p = true := by
  induction l with
  | nil => simpa using containsSeq_self p
  | cons c rest ih =>
    cases hp : p with
    | nil => simp [containsSeq, startsWithSeq]
    | cons q qs => simp [containsSeq, hp ▸ ih]

lemma agentLoop_succ (extract : String → SimType → String) (type : SimType)
    (orc : Oracle) (code : String) (attempts fuel : Nat) :
    agentLoop extract type orc code attempts (fuel + 1) =
      if (validatorAgent orc.parseOk (orc.validator attempts) code type).1.valid then
        .ok (code, attempts)
      else
        match orc.refiner attempts with
        | .error e => .error e
        | .ok raw => agentLoop extract type orc (extract raw type) (attempts + 1) fuel := rfl

lemma agentGenerateSimulation_eq (extract : String → SimType → String)
    (type : SimType) (orc : Oracle) :
    agentGenerateSimulation extract type orc =
      match orc.generator with
      | .error e => .error e
      | .ok rawCode =>
        match agentLoop extract type orc (extract rawCode type) 0 MAX_ATTEMPTS with
        | .error e => .error e
        | .ok (code, attempts) =>
          .ok ⟨code, plannerAgent orc.planner, attempts⟩ := rfl

lemma agentLoop_ok_le (extract : String → SimType → String) (type : SimType)
    (orc : Oracle) :
    ∀ (fuel : Nat) (code : String) (attempts : Nat) (c : String) (a : Nat),
      agentLoop extract type orc code attempts fuel = .ok (c, a) →
      a ≤ attempts + fuel := by
  intro fuel
  induction fuel with
  | zero =>
    intro code attempts c a h
    simp only [agentLoop, Except.ok.injEq, Prod.mk.injEq] at h
    omega
  | succ f ih =>
    intro code attempts c a h
    rw [agentLoop_succ] at h
    split at h
    · simp only [Except.ok.injEq, Prod.mk.injEq] at h
      omega
    · cases hr : orc.refiner attempts with
      | error e => rw [hr] at h; exact absurd h (by simp)
      | ok raw =>
        rw [hr] at h
        have := ih (extract raw type) (attempts + 1) c a h
        omega

-- ─── Claim C2 ──────────────────────────────────────────────────────────

/-- Claim C2: every orchestrator run that returns a result has
`attempts ≤ MAX_ATTEMPTS = 3`. In the source, `ctx.attempts` is
incremented exactly once immediately before each Refiner invocation and
nowhere else, so the returned `attempts` value is also the number of
refine cycles performed: the run performs at most 3 Refiner invocations. -/
theorem C2_attempts_bounded (extract : String → SimType → String)
    (type : SimType) (orc : Oracle) (r : AgentResult)
    (h : agentGenerateSimulation extract type orc = .ok r) :
    r.attempts ≤ MAX_ATTEMPTS := by
  rw [agentGenerateSimulation_eq] at h
  split at h
  · exact absurd h (by simp)
  · split at h
    · exact absurd h (by simp)
    · rename_i raw hg p code attempts hl
      have hle := agentLoop_ok_le extract type orc MAX_ATTEMPTS
        (extract raw type) 0 code attempts hl
      simp only [Except.ok.injEq] at h
      rw [← h]
      simpa using hle

/-- Witness for C2: a concrete accepted-first-try run returns a result with
`attempts = 0 ≤ 3`. -/
theorem C2_witness :
    (⟨"return 1", [defaultPlanStep], 0⟩ : AgentResult).attempts ≤ MAX_ATTEMPTS :=
  C2_attempts_bounded (fun raw _ => raw) SimType.REACT
    ⟨.ok "p", .ok "return 1", fun _ => .ok "VALID", fun _ => .ok "r", fun _ => true⟩
    ⟨"return 1", [defaultPlanStep], 0⟩ rfl

-- ─── Claim C3 ──────────────────────────────────────────────────────────

/-- Claim C3: for every REACT candidate that passes the local syntax check,
a provider error thrown inside the semantic validation is caught:
`validatorAgent` returns normally with `valid = true` and an empty defect
list (fail-open); the error is not propagated (the function is total and
produces an accepting verdict). -/
theorem C3_semantic_fail_open (parseOk : String → Bool) (code : String)
    (e : String) (h : quickSyntaxCheck code = []) :
    validatorAgent parseOk (.error e) code SimType.REACT = (⟨true, []⟩, 1) := by
  simp [validatorAgent, h]

/-- Witness for C3 at a syntactically clean candidate and a failing
provider. -/
theorem C3_witness :
    validatorAgent (fun _ => false) (.error "provider down") "return 1"
      SimType.REACT = (⟨true, []⟩, 1) :=
  C3_semantic_fail_open (fun _ => false) "return 1" "provider down" rfl

-- ─── Claim C4 ──────────────────────────────────────────────────────────

/-- Claim C4 counterexample: a GEOGEBRA candidate whose strict JSON parse
succeeds is accepted with **zero** Completion Provider calls — the
semantic validator (the rubric-prompt provider call) is never invoked,
contradicting the claim that it runs before an accepting verdict. -/
theorem C4_counterexample :
    validatorAgent (fun s => s == geoCmdSample) (.ok "irrelevant")
      geoCmdSample SimType.GEOGEBRA = (⟨true, []⟩, 0) := rfl

/-- Claim C4 (amended): for GEOGEBRA candidates the validator never calls
the Completion Provider — a successful strict parse yields an accepting
verdict immediately, with zero provider calls; the rubric-prompt semantic
check (exactly one provider call) runs only for REACT candidates that
pass the local syntax check. -/
theorem C4_geogebra_skips_semantic (parseOk : String → Bool)
    (semResp semResp' : ProviderResult) (code code' : String)
    (hpar : parseOk code = true) (hsyn : quickSyntaxCheck code' = []) :
    validatorAgent parseOk semResp code SimType.GEOGEBRA = (⟨true, []⟩, 0) ∧
    (validatorAgent parseOk semResp' code' SimType.REACT).2 = 1 := by
  constructor
  · simp [validatorAgent, hpar]
  · cases semResp' <;> simp [validatorAgent, hsyn]

/-- Witness for C4 (amended) at concrete candidates. -/
theorem C4_witness :
    validatorAgent (fun s => s == geoCmdSample) (.ok "x") geoCmdSample
      SimType.GEOGEBRA = (⟨true, []⟩, 0) ∧
    (validatorAgent (fun s => s == geoCmdSample) (.error "y") "return 1"
      SimType.REACT).2 = 1 :=
  C4_geogebra_skips_semantic (fun s => s == geoCmdSample) (.ok "x")
    (.error "y") geoCmdSample "return 1" rfl rfl

-- ─── Claim C1 ──────────────────────────────────────────────────────────

/-- Claim C1 counterexample: a run whose first validation rejects and whose
refiner provider call fails ends in that error — `agentGenerateSimulation`
throws instead of returning the last candidate with the incremented
attempt count. -/
theorem C1_counterexample :
    agentGenerateSimulation (fun raw _ => raw) SimType.REACT
      ⟨.ok "p", .ok "nope", fun _ => .ok "VALID",
        fun _ => .error "provider down", fun _ => true⟩
      = .error "provider down" := rfl

/-- Claim C1 (amended/corrected): a Refiner provider failure during any
refine cycle is NOT caught by the orchestrator: the whole run ends with
that error and no result (in particular no last candidate) is returned.
`refOut i` names the refiner outputs of the earlier, successful cycles and
`candSeq` the resulting candidate sequence. -/
theorem C1_refiner_error_propagates (extract : String → SimType → String)
    (type : SimType) (orc : Oracle) (raw : String) (refOut : Nat → String)
    (e : String) (k : Nat)
    (hgen : orc.generator = .ok raw)
    (hk : k < MAX_ATTEMPTS)
    (hrefOk : ∀ i, i < k → orc.refiner i = .ok (refOut i))
    (hinv : ∀ i, i ≤ k →
      (validatorAgent orc.parseOk (orc.validator i)
        (candSeq extract type raw refOut i) type).1.valid = false)
    (herr : orc.refiner k = .error e) :
    agentGenerateSimulation extract type orc = .error e := by
  have hloop : agentLoop extract type orc (candSeq extract type raw refOut 0)
      0 MAX_ATTEMPTS = .error e := by
    have hk3 : k = 0 ∨ k = 1 ∨ k = 2 := by
      have : MAX_ATTEMPTS = 3 := rfl
      omega
    show agentLoop extract type orc (candSeq extract type raw refOut 0) 0 3 = .error e
    rcases hk3 with h0 | h1 | h2
    · subst h0
      rw [agentLoop_succ, hinv 0 (by omega), herr]
      rfl
    · subst h1
      rw [agentLoop_succ, hinv 0 (by omega), hrefOk 0 (by omega)]
      show agentLoop extract type orc (candSeq extract type raw refOut 1) 1 2 = .error e
      rw [agentLoop_succ, hinv 1 (by omega), herr]
      rfl
    · subst h2
      rw [agentLoop_succ, hinv 0 (by omega), hrefOk 0 (by omega)]
      show agentLoop extract type orc (candSeq extract type raw refOut 1) 1 2 = .error e
      rw [agentLoop_succ, hinv 1 (by omega), hrefOk 1 (by omega)]
      show agentLoop extract type orc (candSeq extract type raw refOut 2) 2 1 = .error e
      rw [agentLoop_succ, hinv 2 (by omega), herr]
      rfl
  unfold agentGenerateSimulation
  rw [hgen]
  show (match agentLoop extract type orc (extract raw type) 0 MAX_ATTEMPTS with
    | .error e => .error e
    | .ok (code, attempts) =>
      .ok (⟨code, plannerAgent orc.planner, attempts⟩ : AgentResult))
    = Except.error e
  rw [show extract raw type = candSeq extract type raw refOut 0 from rfl, hloop]

/-- Witness for C1 (amended) at a concrete failing-refiner run. -/
theorem C1_witness :
    agentGenerateSimulation (fun raw _ => raw) SimType.REACT
      ⟨.ok "p", .ok "nope", fun _ => .ok "VALID",
        fun _ => .error "boom", fun _ => true⟩ = .error "boom" :=
  C1_refiner_error_propagates (fun raw _ => raw) SimType.REACT
    ⟨.ok "p", .ok "nope", fun _ => .ok "VALID",
      fun _ => .error "boom", fun _ => true⟩
    "nope" (fun _ => "") "boom" 0 rfl (by decide)
    (fun i hi => absurd hi (by omega))
    (fun i hi => by
      have h0 : i = 0 := by omega
      subst h0
      rfl)
    rfl

-- ─── Claim C9 ──────────────────────────────────────────────────────────

/-- Claim C9 counterexample: the adapter can silently return the empty
string from a successful call — a DeepSeek response whose payload content
is empty is returned as-is, and on the Gemini new-SDK path a success whose
`text` field is missing becomes `''` (`response.text ?? ''`). -/
theorem C9_counterexample :
    generateContent AIProvider.deepseek none ⟨true, "", ""⟩
      ⟨.ok none, ⟨true, "", ""⟩, .ok ""⟩ = .ok "" ∧
    generateContent AIProvider.gemini (some "gemini-2.0-flash") ⟨true, "", "x"⟩
      ⟨.ok none, ⟨true, "", "y"⟩, .ok "z"⟩ = .ok "" := by
  exact ⟨rfl, rfl⟩

/-- Claim C9 (amended): a failed upstream call surfaces as a thrown error
carrying the raw upstream message (the raw body is a substring of the
thrown message), both for the OpenAI-compatible providers and for the
Gemini REST fallback; a successful call returns the upstream text
verbatim — which may be empty. -/
theorem C9_error_carries_raw_message (p : AIProvider) (m : Option String)
    (oai : ChatResponse) (gem : GeminiBackend) (es : String)
    (hp : p ≠ AIProvider.gemini) :
    (oai.ok = false →
      generateContent p m oai gem =
        .error (capitalizeJs (providerName p) ++ " API Error: " ++ oai.errorText) ∧
      containsSeq (capitalizeJs (providerName p) ++ " API Error: " ++
        oai.errorText).data oai.errorText.data = true) ∧
    (oai.ok = true → generateContent p m oai gem = .ok oai.content) ∧
    ((strContains (m.getD "gemini-1.5-flash") "gemini-3" ||
        strContains (m.getD "gemini-1.5-flash") "gemini-2.0") = true →
      gem.newSdk = .error es → gem.rest.ok = false →
      generateContent AIProvider.gemini m oai gem =
        .error ("Gemini 3 REST API Error: " ++ gem.rest.errorText) ∧
      containsSeq ("Gemini 3 REST API Error: " ++ gem.rest.errorText).data
        gem.rest.errorText.data = true) := by
  refine ⟨fun hok => ⟨?_, ?_⟩, fun hok => ?_, fun hm hsdk hrest => ⟨?_, ?_⟩⟩
  · cases p <;> simp_all [generateContent, callOpenAICompatible]
  · have : (capitalizeJs (providerName p) ++ " API Error: " ++ oai.errorText).data
        = (capitalizeJs (providerName p) ++ " API Error: ").data ++ oai.errorText.data := rfl
    rw [this]
    exact containsSeq_append_self _ _
  · cases p <;> simp_all [generateContent, callOpenAICompatible]
  · simp [generateContent, hm, hsdk, generateContentViaRestAPI, hrest]
  · have : ("Gemini 3 REST API Error: " ++ gem.rest.errorText).data
        = ("Gemini 3 REST API Error: ").data ++ gem.rest.errorText.data := rfl
    rw [this]
    exact containsSeq_append_self _ _

/-- Witness for C9 (amended) at a concrete failing DeepSeek response. -/
theorem C9_witness :
    generateContent AIProvider.deepseek none ⟨false, "rate limited", ""⟩
      ⟨.ok none, ⟨true, "", ""⟩, .ok ""⟩ =
      .error (capitalizeJs (providerName AIProvider.deepseek) ++
        " API Error: " ++ (⟨false, "rate limited", ""⟩ : ChatResponse).errorText) ∧
    containsSeq (capitalizeJs (providerName AIProvider.deepseek) ++
      " API Error: " ++ (⟨false, "rate limited", ""⟩ : ChatResponse).errorText).data
      (⟨false, "rate limited", ""⟩ : ChatResponse).errorText.data = true :=
  (C9_error_carries_raw_message AIProvider.deepseek none
    ⟨false, "rate limited", ""⟩ ⟨.ok none, ⟨true, "", ""⟩, .ok ""⟩ ""
    (by simp)).1 rfl

-- ─── Claim C5 ──────────────────────────────────────────────────────────

/-- Claim C5 counterexample: on a component whose body contains the string
literal `"}"`, the source's depth scan stops at the brace **inside** the
string (position 39) while the spec's string-skipping scan stops at the
real closing brace (position 52); consequently `extractCode` truncates
the component in the middle of the string literal. Braces inside quoted
literals are counted, not skipped. -/
theorem C5_counterexample :
    step3Boundary braceInStringSample = some 39 ∧
    step3BoundarySpec braceInStringSample = some 52 ∧
    step3Boundary braceInStringSample ≠ step3BoundarySpec braceInStringSample ∧
    extractCode (fun _ => false) ⟨braceInStringSample⟩ SimType.REACT =
      ⟨braceInStringSample.take 40⟩ := by
  refine ⟨by decide, by decide, by decide, ?_⟩
  decide

lemma beq_brace_braceOnly (a br : Char) (hbr : br = '{' ∨ br = '}') :
    (braceOnly a == br) = (a == br) := by
  unfold braceOnly
  by_cases h : (a == '{' || a == '}') = true
  · rw [if_pos h]
  · rw [if_neg h]
    have h1 : (a == br) = false := by
      cases hh : a == br
      · rfl
      · refine absurd ?_ h
        rcases hbr with hb | hb <;> subst hb <;> simp_all
    rw [h1]
    rcases hbr with hb | hb <;> subst hb <;> rfl

/-- Claim C5 (amended): the closing-boundary search of the extractor counts
every brace character uniformly, with no string-literal skipping: its
result depends only on the positions of the brace characters (any two
texts with the same brace skeleton get the same boundary, in particular a
text and the same text with its quotes replaced by ordinary letters). -/
theorem C5_brace_scan_ignores_strings (l₁ l₂ : List Char) (i : Nat) (d : Int)
    (h : l₁.map braceOnly = l₂.map braceOnly) :
    findCloseBrace l₁ i d = findCloseBrace l₂ i d := by
  induction l₁ generalizing l₂ i d with
  | nil =>
    cases l₂ with
    | nil => rfl
    | cons c rest => simp at h
  | cons c₁ rest₁ ih =>
    cases l₂ with
    | nil => simp at h
    | cons c₂ rest₂ =>
      simp only [List.map_cons, List.cons.injEq] at h
      obtain ⟨hc, hrest⟩ := h
      have hopen : (c₁ == '{') = (c₂ == '{') := by
        rw [← beq_brace_braceOnly c₁ '{' (by decide),
          ← beq_brace_braceOnly c₂ '{' (by decide), hc]
      have hclose : (c₁ == '}') = (c₂ == '}') := by
        rw [← beq_brace_braceOnly c₁ '}' (by decide),
          ← beq_brace_braceOnly c₂ '}' (by decide), hc]
      simp only [findCloseBrace, ← hopen, ← hclose]
      by_cases hcl : (c₁ == '}') = true
      · rw [if_pos hcl, if_pos hcl]
        by_cases hz : ((if (c₁ == '{') = true then d + 1 else d) - 1 : Int) = 0
        · rw [if_pos hz, if_pos hz]
        · rw [if_neg hz, if_neg hz]
          exact ih rest₂ (i + 1) _ hrest
      · rw [if_neg hcl, if_neg hcl]
        exact ih rest₂ (i + 1) _ hrest

/-- Witness for C5 (amended): the literal `"}"` and the quote-free `a}b`
have the same brace skeleton, hence the same computed boundary. -/
theorem C5_witness :
    findCloseBrace ['"', '}', '"'] 0 1 = findCloseBrace ['a', '}', 'b'] 0 1 ∧
    findCloseBrace ['"', '}', '"'] 0 1 = some 1 :=
  ⟨C5_brace_scan_ignores_strings ['"', '}', '"'] ['a', '}', 'b'] 0 1 (by decide),
    by decide⟩

-- ─── Delimiter-scan lemmas (for C6, C7, C10) ───────────────────────────

lemma pairs_closer {o c : Char} (h : pairs o = some c) : isCloser c = true := by
  unfold pairs at h
  split_ifs at h <;> (injection h with h'; subst h'; rfl)

lemma pairs_opener_not_closer {o c : Char} (h : pairs o = some c) :
    isCloser o = false := by
  unfold pairs at h
  split_ifs at h with h1 h2 h3
  · have h1' : o = '{' := by simpa using h1
    subst h1'; rfl
  · have h2' : o = '[' := by simpa using h2
    subst h2'; rfl
  · have h3' : o = '(' := by simpa using h3
    subst h3'; rfl

lemma closer_no_pairs {c : Char} (h : isCloser c = true) : pairs c = none := by
  simp only [isCloser, Bool.or_eq_true, beq_iff_eq] at h
  rcases h with (h | h) | h <;> subst h <;> rfl

/-- Restatement of `quickSyntaxCheck` with the scan result spelled out. -/
lemma quickSyntaxCheck_eq (code : String) :
    quickSyntaxCheck code =
      (match (scanChars code.data 0 initScanSt).1 with
       | some (c, i) => [Defect.unmatched c i]
       | none => []) ++
      (if (scanChars code.data 0 initScanSt).2.stack.isEmpty then []
       else [Defect.unclosed (scanChars code.data 0 initScanSt).2.stack]) ++
      (if strContains code "import " && !strContains code "// import" then
        [Defect.importNotAllowed] else []) ++
      (if !strContains code "return" && !strContains code "return(" then
        [Defect.missingReturn] else []) := rfl

/-- The scanner processes an appended list by first scanning the left part
and, unless it stopped with an error there, continuing on the right part
from the resulting state. -/
lemma scanChars_append (l₁ l₂ : List Char) (i : Nat) (st : ScanSt) :
    scanChars (l₁ ++ l₂) i st =
      match scanChars l₁ i st with
      | (some e, st') => (some e, st')
      | (none, st') => scanChars l₂ (i + l₁.length) st' := by
  induction l₁ generalizing i st with
  | nil => simp [scanChars]
  | cons c rest ih =>
    simp only [List.cons_append, scanChars, List.length_cons]
    have harith : i + (rest.length + 1) = i + 1 + rest.length := by omega
    by_cases h1 : st.inString
    · rw [if_pos h1, if_pos h1, harith]
      by_cases h2 : (c == st.stringChar && st.prev != '\\') = true
      · rw [if_pos h2, if_pos h2]
        exact ih (i + 1) _
      · rw [if_neg h2, if_neg h2]
        exact ih (i + 1) _
    · rw [if_neg h1, if_neg h1, harith]
      by_cases h2 : isQuote c = true
      · rw [if_pos h2, if_pos h2]
        exact ih (i + 1) _
      · rw [if_neg h2, if_neg h2]
        cases hp : pairs c with
        | some closer => exact ih (i + 1) _
        | none =>
          by_cases h3 : isCloser c = true
          · rw [if_pos h3, if_pos h3]
            cases hs : st.stack with
            | nil => rfl
            | cons top s₀ =>
              by_cases h4 : (top == c) = true
              · have h4' : (top == c) = true := h4
                simp only [h4', eq_self_iff_true, if_true]
                exact ih (i + 1) _
              · have h4' : (top == c) = false := by simpa using h4
                simp only [h4', Bool.false_eq_true, if_false]
          · rw [if_neg h3, if_neg h3]
            exact ih (i + 1) _

/-- The scanner's error and final stack coincide with the pure bracket
machine run on the delimiter events extracted by the same in-string
automaton. -/
lemma scanChars_eq_bracketRun :
    ∀ (cs : List Char) (i : Nat) (st : ScanSt),
    ((scanChars cs i st).1, (scanChars cs i st).2.stack) =
      bracketRun (delimEvents cs i st.inString st.stringChar st.prev) st.stack := by
  intro cs
  induction cs with
  | nil => intro i st; simp [scanChars, delimEvents, bracketRun]
  | cons c rest ih =>
    intro i st
    obtain ⟨stk, ins, sc, pv⟩ := st
    cases ins with
    | true =>
      by_cases h2 : (c == sc && pv != '\\') = true
      · have hstep : scanChars (c :: rest) i ⟨stk, true, sc, pv⟩ =
            scanChars rest (i + 1) ⟨stk, false, sc, c⟩ := by
          simp [scanChars, h2]
        have hev : delimEvents (c :: rest) i true sc pv =
            delimEvents rest (i + 1) false sc c := by
          simp [delimEvents, h2]
        rw [hstep, hev]
        exact ih (i + 1) ⟨stk, false, sc, c⟩
      · have hstep : scanChars (c :: rest) i ⟨stk, true, sc, pv⟩ =
            scanChars rest (i + 1) ⟨stk, true, sc, c⟩ := by
          simp [scanChars, h2]
        have hev : delimEvents (c :: rest) i true sc pv =
            delimEvents rest (i + 1) true sc c := by
          simp [delimEvents, h2]
        rw [hstep, hev]
        exact ih (i + 1) ⟨stk, true, sc, c⟩
    | false =>
      by_cases h2 : isQuote c = true
      · have hstep : scanChars (c :: rest) i ⟨stk, false, sc, pv⟩ =
            scanChars rest (i + 1) ⟨stk, true, c, c⟩ := by
          simp [scanChars, h2]
        have hev : delimEvents (c :: rest) i false sc pv =
            delimEvents rest (i + 1) true c c := by
          simp [delimEvents, h2]
        rw [hstep, hev]
        exact ih (i + 1) ⟨stk, true, c, c⟩
      · cases hp : pairs c with
        | some closer =>
          have hstep : scanChars (c :: rest) i ⟨stk, false, sc, pv⟩ =
              scanChars rest (i + 1) ⟨closer :: stk, false, sc, c⟩ := by
            simp [scanChars, h2, hp]
          have hev : delimEvents (c :: rest) i false sc pv =
              (c, i) :: delimEvents rest (i + 1) false sc c := by
            simp [delimEvents, h2, hp]
          have hrun : bracketRun ((c, i) :: delimEvents rest (i + 1) false sc c) stk =
              bracketRun (delimEvents rest (i + 1) false sc c) (closer :: stk) := by
            simp [bracketRun, hp]
          rw [hstep, hev, hrun]
          exact ih (i + 1) ⟨closer :: stk, false, sc, c⟩
        | none =>
          by_cases h3 : isCloser c = true
          · have hev : delimEvents (c :: rest) i false sc pv =
                (c, i) :: delimEvents rest (i + 1) false sc c := by
              simp [delimEvents, h2, hp, h3]
            cases stk with
            | nil =>
              have hstep : scanChars (c :: rest) i ⟨[], false, sc, pv⟩ =
                  (some (c, i), ⟨[], false, sc, c⟩) := by
                simp [scanChars, h2, hp, h3]
              rw [hstep, hev]
              simp [bracketRun, hp, h3]
            | cons top s₀ =>
              by_cases h4 : (top == c) = true
              · have hstep : scanChars (c :: rest) i ⟨top :: s₀, false, sc, pv⟩ =
                    scanChars rest (i + 1) ⟨s₀, false, sc, c⟩ := by
                  simp [scanChars, h2, hp, h3, h4]
                have hrun : bracketRun ((c, i) ::
                    delimEvents rest (i + 1) false sc c) (top :: s₀) =
                      bracketRun (delimEvents rest (i + 1) false sc c) s₀ := by
                  simp [bracketRun, hp, h3, h4]
                rw [hstep, hev, hrun]
                exact ih (i + 1) ⟨s₀, false, sc, c⟩
              · have hstep : scanChars (c :: rest) i ⟨top :: s₀, false, sc, pv⟩ =
                    (some (c, i), ⟨s₀, false, sc, c⟩) := by
                  simp [scanChars, h2, hp, h3, h4]
                rw [hstep, hev]
                simp [bracketRun, hp, h3, h4]
          · have hstep : scanChars (c :: rest) i ⟨stk, false, sc, pv⟩ =
                scanChars rest (i + 1) ⟨stk, false, sc, c⟩ := by
              simp [scanChars, h2, hp, h3]
            have hev : delimEvents (c :: rest) i false sc pv =
                delimEvents rest (i + 1) false sc c := by
              simp [delimEvents, h2, hp, h3]
            rw [hstep, hev]
            exact ih (i + 1) ⟨stk, false, sc, c⟩

lemma bracketRun_of_runC_some :
    ∀ (evs : List (Char × Nat)) (s s' : List Char),
      bracketRunC (evs.map Prod.fst) s = some s' →
      bracketRun evs s = (none, s') := by
  intro evs
  induction evs with
  | nil =>
    intro s s' h
    simp only [List.map_nil, bracketRunC, Option.some.injEq] at h
    simp [bracketRun, h]
  | cons ev rest ih =>
    intro s s' h
    obtain ⟨c, i⟩ := ev
    simp only [List.map_cons, bracketRunC] at h
    simp only [bracketRun]
    cases hp : pairs c with
    | some closer =>
      simp only [hp] at h ⊢
      exact ih _ _ h
    | none =>
      simp only [hp] at h ⊢
      by_cases h3 : isCloser c = true
      · simp only [h3, eq_self_iff_true, if_true] at h ⊢
        cases s with
        | nil => exact absurd h (by simp)
        | cons top s₀ =>
          by_cases h4 : (top == c) = true
          · simp only [h4, eq_self_iff_true, if_true] at h ⊢
            exact ih _ _ h
          · have h4' : (top == c) = false := by simpa using h4
            simp only [h4', Bool.false_eq_true, if_false] at h
            exact absurd h (by simp)
      · have h3' : isCloser c = false := by simpa using h3
        simp only [h3', Bool.false_eq_true, if_false] at h ⊢
        exact ih _ _ h

lemma bracketRun_of_runC_none :
    ∀ (evs : List (Char × Nat)) (s : List Char),
      bracketRunC (evs.map Prod.fst) s = none →
      ∃ c i s₀, bracketRun evs s = (some (c, i), s₀) := by
  intro evs
  induction evs with
  | nil => intro s h; simp [bracketRunC] at h
  | cons ev rest ih =>
    intro s h
    obtain ⟨c, i⟩ := ev
    simp only [List.map_cons, bracketRunC] at h
    simp only [bracketRun]
    cases hp : pairs c with
    | some closer =>
      simp only [hp] at h ⊢
      exact ih _ h
    | none =>
      simp only [hp] at h ⊢
      by_cases h3 : isCloser c = true
      · simp only [h3, eq_self_iff_true, if_true] at h ⊢
        cases s with
        | nil => exact ⟨c, i, [], rfl⟩
        | cons top s₀ =>
          by_cases h4 : (top == c) = true
          · simp only [h4, eq_self_iff_true, if_true] at h ⊢
            exact ih _ h
          · have h4' : (top == c) = false := by simpa using h4
            simp only [h4', Bool.false_eq_true, if_false]
            exact ⟨c, i, s₀, rfl⟩
      · have h3' : isCloser c = false := by simpa using h3
        simp only [h3', Bool.false_eq_true, if_false] at h ⊢
        exact ih _ h

lemma bracketRunC_append (l₁ l₂ : List Char) (s : List Char) :
    bracketRunC (l₁ ++ l₂) s =
      match bracketRunC l₁ s with
      | none => none
      | some s' => bracketRunC l₂ s' := by
  induction l₁ generalizing s with
  | nil => simp [bracketRunC]
  | cons c rest ih =>
    simp only [List.cons_append, bracketRunC]
    cases hp : pairs c with
    | some closer =>
      simp only [hp]
      exact ih _
    | none =>
      simp only [hp]
      by_cases h3 : isCloser c = true
      · simp only [h3, eq_self_iff_true, if_true]
        cases s with
        | nil => rfl
        | cons top s₀ =>
          by_cases h4 : (top == c) = true
          · simp only [h4, eq_self_iff_true, if_true]
            exact ih _
          · have h4' : (top == c) = false := by simpa using h4
            simp only [h4', Bool.false_eq_true, if_false]
      · have h3' : isCloser c = false := by simpa using h3
        simp only [h3', Bool.false_eq_true, if_false]
        exact ih _

/-- A balanced delimiter sequence runs the bracket machine to completion
and leaves the stack exactly as it found it. -/
lemma balanced_runC {l : List Char} (h : Balanced l) :
    ∀ s, bracketRunC l s = some s := by
  induction h with
  | nil => intro s; rfl
  | @wrap o c body hp _ ih =>
    intro s
    have hstep : bracketRunC (o :: (body ++ [c])) s =
        bracketRunC (body ++ [c]) (c :: s) := by
      simp only [bracketRunC, hp]
    rw [List.cons_append, hstep, bracketRunC_append, ih (c :: s)]
    have hc : isCloser c = true := pairs_closer hp
    simp [bracketRunC, closer_no_pairs hc, hc]
  | append _ _ ih₁ ih₂ =>
    intro s
    rw [bracketRunC_append, ih₁ s]
    exact ih₂ s

lemma balanced_counts {l : List Char} (h : Balanced l) :
    opensCount l = closesCount l := by
  induction h with
  | nil => rfl
  | @wrap o c body hp _ ih =>
    simp only [opensCount, closesCount, List.countP_cons, List.countP_append] at *
    have ho : ((pairs o).isSome) = true := by simp [hp]
    have hoc : isCloser o = false := pairs_opener_not_closer hp
    have hc : isCloser c = true := pairs_closer hp
    have hcp : (pairs c).isSome = false := by simp [closer_no_pairs hc]
    simp [ho, hoc, hc, hcp]
    omega
  | append _ _ ih₁ ih₂ =>
    simp only [opensCount, closesCount, List.countP_append] at *
    omega

lemma runC_counts :
    ∀ (l : List Char) (s s' : List Char), bracketRunC l s = some s' →
      s'.length + closesCount l = s.length + opensCount l := by
  intro l
  induction l with
  | nil =>
    intro s s' h
    simp only [bracketRunC, Option.some.injEq] at h
    simp [h, opensCount, closesCount]
  | cons c rest ih =>
    intro s s' h
    simp only [bracketRunC] at h
    simp only [opensCount, closesCount, List.countP_cons]
    cases hp : pairs c with
    | some closer =>
      simp only [hp] at h
      have := ih _ _ h
      have ho : ((pairs c).isSome) = true := by simp [hp]
      have hoc : isCloser c = false := pairs_opener_not_closer hp
      simp only [opensCount, closesCount, List.length_cons] at this
      simp [ho, hoc]
      omega
    | none =>
      simp only [hp] at h
      by_cases h3 : isCloser c = true
      · simp only [h3, eq_self_iff_true, if_true] at h
        cases s with
        | nil => exact absurd h (by simp)
        | cons top s₀ =>
          by_cases h4 : (top == c) = true
          · simp only [h4, eq_self_iff_true, if_true] at h
            have := ih _ _ h
            simp only [opensCount, closesCount] at this
            simp [h3, hp, List.length_cons]
            omega
          · have h4' : (top == c) = false := by simpa using h4
            simp only [h4', Bool.false_eq_true, if_false] at h
            exact absurd h (by simp)
      · have h3' : isCloser c = false := by simpa using h3
        simp only [h3', Bool.false_eq_true, if_false] at h
        have := ih _ _ h
        simp only [opensCount, closesCount] at this
        simp [h3, hp]
        omega

lemma one_unmatched_counts {l : List Char} (h : OneUnmatchedCloser l) :
    closesCount l = opensCount l + 1 := by
  obtain ⟨l₁, c, l₂, hdec, hc, hbal⟩ := h
  have hcount := balanced_counts hbal
  have hcp : (pairs c).isSome = false := by simp [closer_no_pairs hc]
  subst hdec
  simp only [opensCount, closesCount, List.countP_append, List.countP_cons] at *
  simp [hc, hcp]
  omega

lemma runC_none_of_one_unmatched {l : List Char} (h : OneUnmatchedCloser l) :
    bracketRunC l [] = none := by
  cases hr : bracketRunC l [] with
  | none => rfl
  | some s' =>
    have hlen := runC_counts l [] s' hr
    have hcnt := one_unmatched_counts h
    simp only [List.length_nil] at hlen
    omega

/-- The scanner stops at the reported error position: scanning only the
prefix up to and including that position gives the same error and the
same final state. -/
lemma scanChars_stops :
    ∀ (cs : List Char) (i : Nat) (st : ScanSt) (c : Char) (j : Nat) (st' : ScanSt),
      scanChars cs i st = (some (c, j), st') →
      i ≤ j ∧ scanChars (cs.take (j + 1 - i)) i st = (some (c, j), st') := by
  intro cs
  induction cs with
  | nil =>
    intro i st c j st' h
    exact absurd h (by simp [scanChars])
  | cons ch rest ih =>
    intro i st c j st' h
    obtain ⟨stk, ins, sc, pv⟩ := st
    have hcont : ∀ (st₁ : ScanSt),
        (∀ t : List Char, scanChars (ch :: t) i ⟨stk, ins, sc, pv⟩ =
          scanChars t (i + 1) st₁) →
        scanChars rest (i + 1) st₁ = (some (c, j), st') →
        i ≤ j ∧ scanChars ((ch :: rest).take (j + 1 - i)) i ⟨stk, ins, sc, pv⟩ =
          (some (c, j), st') := by
      intro st₁ hstep hrec
      obtain ⟨hij, hpre⟩ := ih (i + 1) st₁ c j st' hrec
      refine ⟨by omega, ?_⟩
      have htake : (ch :: rest).take (j + 1 - i) =
          ch :: rest.take (j + 1 - (i + 1)) := by
        have hh : j + 1 - i = (j + 1 - (i + 1)) + 1 := by omega
        rw [hh, List.take_succ_cons]
      rw [htake, hstep (rest.take (j + 1 - (i + 1)))]
      exact hpre
    have herrcase : ∀ (A : ScanSt),
        (∀ t : List Char, scanChars (ch :: t) i ⟨stk, ins, sc, pv⟩ =
          (some (ch, i), A)) →
        scanChars (ch :: rest) i ⟨stk, ins, sc, pv⟩ = (some (c, j), st') →
        i ≤ j ∧ scanChars ((ch :: rest).take (j + 1 - i)) i ⟨stk, ins, sc, pv⟩ =
          (some (c, j), st') := by
      intro A hstep h0
      rw [hstep rest] at h0
      simp only [Prod.mk.injEq, Option.some.injEq] at h0
      obtain ⟨⟨hc1, hj1⟩, hst1⟩ := h0
      subst hc1
      subst hj1
      subst hst1
      refine ⟨le_refl i, ?_⟩
      have hh : i + 1 - i = 1 := by omega
      rw [hh]
      have htake1 : (ch :: rest).take 1 = [ch] := by simp
      rw [htake1]
      exact hstep []
    cases ins with
    | true =>
      by_cases h2 : (ch == sc && pv != '\\') = true
      · have hstep : ∀ t, scanChars (ch :: t) i ⟨stk, true, sc, pv⟩ =
            scanChars t (i + 1) ⟨stk, false, sc, ch⟩ := by
          intro t; simp [scanChars, h2]
        rw [hstep rest] at h
        exact hcont _ hstep h
      · have hstep : ∀ t, scanChars (ch :: t) i ⟨stk, true, sc, pv⟩ =
            scanChars t (i + 1) ⟨stk, true, sc, ch⟩ := by
          intro t; simp [scanChars, h2]
        rw [hstep rest] at h
        exact hcont _ hstep h
    | false =>
      by_cases h2 : isQuote ch = true
      · have hstep : ∀ t, scanChars (ch :: t) i ⟨stk, false, sc, pv⟩ =
            scanChars t (i + 1) ⟨stk, true, ch, ch⟩ := by
          intro t; simp [scanChars, h2]
        rw [hstep rest] at h
        exact hcont _ hstep h
      · cases hp : pairs ch with
        | some closer =>
          have hstep : ∀ t, scanChars (ch :: t) i ⟨stk, false, sc, pv⟩ =
              scanChars t (i + 1) ⟨closer :: stk, false, sc, ch⟩ := by
            intro t; simp [scanChars, h2, hp]
          rw [hstep rest] at h
          exact hcont _ hstep h
        | none =>
          by_cases h3 : isCloser ch = true
          · cases stk with
            | nil =>
              have hstep : ∀ t, scanChars (ch :: t) i ⟨[], false, sc, pv⟩ =
                  (some (ch, i), ⟨[], false, sc, ch⟩) := by
                intro t; simp [scanChars, h2, hp, h3]
              exact herrcase _ hstep h
            | cons top s₀ =>
              by_cases h4 : (top == ch) = true
              · have hstep : ∀ t, scanChars (ch :: t) i ⟨top :: s₀, false, sc, pv⟩ =
                    scanChars t (i + 1) ⟨s₀, false, sc, ch⟩ := by
                  intro t; simp [scanChars, h2, hp, h3, h4]
                rw [hstep rest] at h
                exact hcont _ hstep h
              · have hstep : ∀ t, scanChars (ch :: t) i ⟨top :: s₀, false, sc, pv⟩ =
                    (some (ch, i), ⟨s₀, false, sc, ch⟩) := by
                  intro t
                  have h4' : (top == ch) = false := by simpa using h4
                  simp [scanChars, h2, hp, h3, h4']
                exact herrcase _ hstep h
          · have hstep : ∀ t, scanChars (ch :: t) i ⟨stk, false, sc, pv⟩ =
                scanChars t (i + 1) ⟨stk, false, sc, ch⟩ := by
              intro t
              have h3' : isCloser ch = false := by simpa using h3
              simp [scanChars, h2, hp, h3']
            rw [hstep rest] at h
            exact hcont _ hstep h

/-- From an in-string state whose literal is never terminated, the scanner
consumes the rest of the input without reporting anything and without
touching the stack. -/
lemma scanChars_stays_in_string :
    ∀ (l : List Char) (i : Nat) (stack : List Char) (sc prev : Char),
      staysInString l sc prev = true →
      ∃ p', scanChars l i ⟨stack, true, sc, prev⟩ = (none, ⟨stack, true, sc, p'⟩) := by
  intro l
  induction l with
  | nil => intro i stack sc prev _; exact ⟨prev, rfl⟩
  | cons ch rest ih =>
    intro i stack sc prev h
    simp only [staysInString] at h
    by_cases h2 : (ch == sc && prev != '\\') = true
    · rw [if_pos h2] at h; exact absurd h (by simp)
    · rw [if_neg h2] at h
      have step : scanChars (ch :: rest) i ⟨stack, true, sc, prev⟩ =
          scanChars rest (i + 1) ⟨stack, true, sc, ch⟩ := by
        simp [scanChars, h2]
      rw [step]
      exact ih (i + 1) stack sc ch h

-- ─── Claim C6 ──────────────────────────────────────────────────────────

/-- Claim C6: every candidate whose out-of-string delimiter sequence is
balanced, which triggers no import-line defect, and which contains the
return marker, passes `quickSyntaxCheck` with an empty defect list. -/
theorem C6_balanced_accepted (code : String)
    (hbal : Balanced ((delimEvents code.data 0 false ' ' ' ').map Prod.fst))
    (himp : (strContains code "import " && !strContains code "// import") = false)
    (hret : strContains code "return" = true) :
    quickSyntaxCheck code = [] := by
  have h1 := balanced_runC hbal ([] : List Char)
  have h2 := bracketRun_of_runC_some (delimEvents code.data 0 false ' ' ' ') [] [] h1
  have h3 := scanChars_eq_bracketRun code.data 0 initScanSt
  rw [show initScanSt.inString = false from rfl, show initScanSt.stringChar = ' ' from rfl,
    show initScanSt.prev = ' ' from rfl, show initScanSt.stack = ([] : List Char) from rfl,
    h2] at h3
  have herr : (scanChars code.data 0 initScanSt).1 = none := by
    have := congrArg Prod.fst h3
    simpa using this
  have hstk : (scanChars code.data 0 initScanSt).2.stack = [] := by
    have := congrArg Prod.snd h3
    simpa using this
  rw [quickSyntaxCheck_eq, herr, hstk, himp, hret]
  simp

/-- Witness for C6 at `return (1)` (one balanced pair, return marker,
no import line). -/
theorem C6_witness : quickSyntaxCheck "return (1)" = [] :=
  C6_balanced_accepted "return (1)"
    (by
      have h : ((delimEvents "return (1)".data 0 false ' ' ' ').map Prod.fst) =
          ['(', ')'] := by decide
      rw [h]
      exact Balanced.wrap (by decide) Balanced.nil)
    (by decide) (by decide)

-- ─── Claim C7 ──────────────────────────────────────────────────────────

/-- Claim C7 counterexample: `return {{]}}` has exactly one unmatched
closing delimiter (removing the `]` leaves balanced `{{}}`), yet the
validator reports **two** defects: the positional unmatched-delimiter
defect and a spurious `Unclosed brackets` defect for braces that are in
fact closed later in the input. -/
theorem C7_counterexample :
    OneUnmatchedCloser
      ((delimEvents "return {{]}}".data 0 false ' ' ' ').map Prod.fst) ∧
    quickSyntaxCheck "return {{]}}" =
      [Defect.unmatched ']' 9, Defect.unclosed ['}']] ∧
    (quickSyntaxCheck "return {{]}}").length ≠ 1 := by
  refine ⟨⟨['{', '{'], ']', ['}', '}'], by decide, by decide, ?_⟩, by decide, by decide⟩
  exact Balanced.wrap (by decide) (Balanced.wrap (by decide) Balanced.nil)

/-- Claim C7 (amended): for every candidate whose out-of-string delimiter
sequence has exactly one unmatched closing delimiter, the scan stops at
the offending position — the defect list contains exactly one positional
`unmatched delimiter` defect, and scanning the prefix up to that position
yields the same outcome (no defect is derived from later characters) —
but when unclosed openers remain pending at the stop position a single
`Unclosed brackets` summary defect is additionally reported (as are the
independent import / return defects when they apply). -/
theorem C7_one_unmatched_defect (code : String)
    (h : OneUnmatchedCloser
      ((delimEvents code.data 0 false ' ' ' ').map Prod.fst)) :
    (quickSyntaxCheck code).countP isUnmatchedDefect = 1 ∧
    ∃ c j st', scanChars code.data 0 initScanSt = (some (c, j), st') ∧
      scanChars (code.data.take (j + 1)) 0 initScanSt = (some (c, j), st') := by
  have hnone := runC_none_of_one_unmatched h
  obtain ⟨c, i, s₀, hrun⟩ :=
    bracketRun_of_runC_none (delimEvents code.data 0 false ' ' ' ') [] hnone
  have h3 := scanChars_eq_bracketRun code.data 0 initScanSt
  rw [show initScanSt.inString = false from rfl, show initScanSt.stringChar = ' ' from rfl,
    show initScanSt.prev = ' ' from rfl, show initScanSt.stack = ([] : List Char) from rfl,
    hrun] at h3
  have herr : (scanChars code.data 0 initScanSt).1 = some (c, i) := by
    have := congrArg Prod.fst h3
    simpa using this
  constructor
  · rw [quickSyntaxCheck_eq, herr]
    simp only [List.countP_append]
    have c1 : (([Defect.unmatched c i]).countP isUnmatchedDefect) = 1 := by
      simp [isUnmatchedDefect]
    have c2 : ((if (scanChars code.data 0 initScanSt).2.stack.isEmpty then []
        else [Defect.unclosed (scanChars code.data 0 initScanSt).2.stack]).countP
          isUnmatchedDefect) = 0 := by
      split <;> simp [isUnmatchedDefect]
    have c3 : ((if strContains code "import " && !strContains code "// import" then
        [Defect.importNotAllowed] else []).countP isUnmatchedDefect) = 0 := by
      split <;> simp [isUnmatchedDefect]
    have c4 : ((if !strContains code "return" && !strContains code "return(" then
        [Defect.missingReturn] else []).countP isUnmatchedDefect) = 0 := by
      split <;> simp [isUnmatchedDefect]
    omega
  · have hpair : scanChars code.data 0 initScanSt =
        (some (c, i), (scanChars code.data 0 initScanSt).2) := by
      rw [← herr]
    obtain ⟨hij, hstop⟩ := scanChars_stops code.data 0 initScanSt c i _ hpair
    refine ⟨c, i, (scanChars code.data 0 initScanSt).2, hpair, ?_⟩
    have : i + 1 - 0 = i + 1 := by omega
    rw [← this]
    exact hstop

/-- Witness for C7 (amended) at `return )` (a single stray closer on an
empty stack: exactly one unmatched defect, scan stops at position 7). -/
theorem C7_witness :
    (quickSyntaxCheck "return )").countP isUnmatchedDefect = 1 ∧
    ∃ c j st', scanChars "return )".data 0 initScanSt = (some (c, j), st') ∧
      scanChars ("return )".data.take (j + 1)) 0 initScanSt = (some (c, j), st') :=
  C7_one_unmatched_defect "return )"
    ⟨[], ')', [], by decide, by decide, Balanced.nil⟩

-- ─── Claim C10 ─────────────────────────────────────────────────────────

/-- Claim C10 counterexample: `return { "abc` opens an unterminated string
literal, contains a return statement, and triggers no import-line defect —
and indeed no delimiter defect arises from any bracket *after* the quote —
yet it is NOT accepted: the `{` opened *before* the quote is left pending
and yields an `Unclosed brackets` defect, so the claim's acceptance
conclusion fails. -/
theorem C10_counterexample :
    ("return \x7b \"abc").data = "return \x7b ".data ++ '"' :: "abc".data ∧
    isQuote '"' = true ∧
    staysInString "abc".data '"' '"' = true ∧
    strContains "return \x7b \"abc" "return" = true ∧
    (strContains "return \x7b \"abc" "import " &&
      !strContains "return \x7b \"abc" "// import") = false ∧
    quickSyntaxCheck "return \x7b \"abc" = [Defect.unclosed ['}']] ∧
    quickSyntaxCheck "return \x7b \"abc" ≠ [] := by
  refine ⟨by decide, by decide, by decide, by decide, by decide, by decide, by decide⟩

/-- Claim C10 (amended): if a candidate opens a string literal that is never
terminated, every subsequent character is treated as inside that string
(no delimiter defect arises from any bracket after the opening quote); it
is accepted provided additionally the scan of the prefix *before* the
quote finished cleanly — no unmatched defect, no pending opener, not
itself inside a string — together with a return marker and no import-line
defect. -/
theorem C10_unterminated_string_accepts (code : String) (pre suf : List Char)
    (q : Char)
    (hsplit : code.data = pre ++ q :: suf)
    (hq : isQuote q = true)
    (hpre1 : (scanChars pre 0 initScanSt).1 = none)
    (hpre2 : (scanChars pre 0 initScanSt).2.stack = [])
    (hpre3 : (scanChars pre 0 initScanSt).2.inString = false)
    (hstays : staysInString suf q q = true)
    (himp : (strContains code "import " && !strContains code "// import") = false)
    (hret : strContains code "return" = true) :
    quickSyntaxCheck code = [] := by
  have hpair : scanChars pre 0 initScanSt =
      (none, (scanChars pre 0 initScanSt).2) := by rw [← hpre1]
  have happ2 : scanChars code.data 0 initScanSt =
      scanChars (q :: suf) (0 + pre.length) (scanChars pre 0 initScanSt).2 := by
    rw [hsplit, scanChars_append, hpair]
  have hqstep : scanChars (q :: suf) (0 + pre.length)
      (scanChars pre 0 initScanSt).2 =
      scanChars suf (0 + pre.length + 1)
        ⟨(scanChars pre 0 initScanSt).2.stack, true, q, q⟩ := by
    simp only [scanChars]
    rw [if_neg (by rw [hpre3]; simp), if_pos hq]
  obtain ⟨p', hsuf⟩ := scanChars_stays_in_string suf (0 + pre.length + 1)
    (scanChars pre 0 initScanSt).2.stack q q hstays
  have hscan : scanChars code.data 0 initScanSt =
      (none, ⟨(scanChars pre 0 initScanSt).2.stack, true, q, p'⟩) := by
    rw [happ2, hqstep, hsuf]
  rw [quickSyntaxCheck_eq, hscan, himp, hret]
  rw [hpre2]
  simp

/-- Witness for C10 (amended) at `return "abc`. -/
theorem C10_witness : quickSyntaxCheck "return \"abc" = [] :=
  C10_unterminated_string_accepts "return \"abc" "return ".data "abc".data '"'
    (by decide) (by decide) (by decide) (by decide) (by decide) (by decide)
    (by decide) (by decide)

-- ─── Extractor lemmas (for C8): trimming ───────────────────────────────

lemma dropWhile_eq_self_of_head {p : Char → Bool} (l : List Char)
    (h : ∀ c, l.head? = some c → p c = false) : l.dropWhile p = l := by
  cases l with
  | nil => rfl
  | cons a t =>
    have := h a rfl
    simp [List.dropWhile_cons, this]

lemma head?_dropWhile_false (p : Char → Bool) (l : List Char) (c : Char)
    (h : (l.dropWhile p).head? = some c) : p c = false := by
  have hn := List.head?_dropWhile_not p l
  rw [h] at hn
  exact hn

lemma dropWhile_suffix_getLast (p : Char → Bool) :
    ∀ l : List Char, l.dropWhile p ≠ [] →
      (l.dropWhile p).getLast? = l.getLast? := by
  intro l
  induction l with
  | nil => intro h; exact absurd rfl h
  | cons a t ih =>
    intro h
    by_cases hp : p a = true
    · rw [List.dropWhile_cons, if_pos hp] at h ⊢
      rw [ih h]
      cases t with
      | nil => exact absurd rfl h
      | cons b u => rw [List.getLast?_cons_cons]
    · rw [List.dropWhile_cons, if_neg hp]

lemma trimList_head_ws (l : List Char) (c : Char)
    (h : (trimList l).head? = some c) : isJsWs c = false := by
  unfold trimList at h
  rw [List.head?_reverse] at h
  by_cases hMe : (l.dropWhile isJsWs).reverse.dropWhile isJsWs = []
  · rw [hMe] at h; simp at h
  · rw [dropWhile_suffix_getLast isJsWs (l.dropWhile isJsWs).reverse hMe,
      List.getLast?_reverse] at h
    exact head?_dropWhile_false isJsWs l c h

lemma trimList_last_ws (l : List Char) (c : Char)
    (h : (trimList l).getLast? = some c) : isJsWs c = false := by
  unfold trimList at h
  rw [List.getLast?_reverse] at h
  exact head?_dropWhile_false isJsWs _ c h

lemma trimList_of_clean_ends (l : List Char)
    (hh : ∀ c, l.head? = some c → isJsWs c = false)
    (hl : ∀ c, l.getLast? = some c → isJsWs c = false) :
    trimList l = l := by
  unfold trimList
  rw [dropWhile_eq_self_of_head l hh]
  rw [dropWhile_eq_self_of_head l.reverse
    (fun c hc => hl c (by rwa [List.head?_reverse] at hc))]
  exact List.reverse_reverse l

lemma trimList_idem (l : List Char) : trimList (trimList l) = trimList l :=
  trimList_of_clean_ends _ (trimList_head_ws l) (trimList_last_ws l)

-- ─── Extractor lemmas (for C8): cleanup passes are identities ──────────

lemma containsSeq_cons_false {l : List Char} {c : Char} {p : List Char}
    (h : containsSeq (c :: l) p = false) :
    startsWithSeq (c :: l) p = false ∧ containsSeq l p = false := by
  have h' := h
  simp only [containsSeq, Bool.or_eq_false_iff] at h'
  exact h'

lemma fenceTryHere_none {l : List Char} (h : startsWithSeq l tick3 = false) :
    fenceTryHere l = none := by
  simp [fenceTryHere, h]

lemma fenceFind_none {l : List Char} (h : containsSeq l tick3 = false) :
    fenceFind l = none := by
  induction l with
  | nil => rfl
  | cons c t ih =>
    obtain ⟨h1, h2⟩ := containsSeq_cons_false h
    simp [fenceFind, fenceTryHere_none h1, ih h2]

lemma fenceStep_of_no_ticks {l : List Char} (h : containsSeq l tick3 = false) :
    fenceStep l = l := by
  simp [fenceStep, fenceFind_none h]

lemma stripFenceOpensAux_no_ticks :
    ∀ (fuel : Nat) (l : List Char) (b : Bool), containsSeq l tick3 = false →
      stripFenceOpensAux fuel l b = l := by
  intro fuel
  induction fuel with
  | zero => intro l b _; rfl
  | succ f ih =>
    intro l b h
    cases l with
    | nil => rfl
    | cons c t =>
      obtain ⟨h1, h2⟩ := containsSeq_cons_false h
      simp [stripFenceOpensAux, h1, ih t (c == '\n') h2]

lemma stripFenceClosesAux_no_ticks :
    ∀ (fuel : Nat) (l : List Char), containsSeq l tick3 = false →
      stripFenceClosesAux fuel l = l := by
  intro fuel
  induction fuel with
  | zero => intro l _; rfl
  | succ f ih =>
    intro l h
    cases l with
    | nil => rfl
    | cons c t =>
      obtain ⟨h1, h2⟩ := containsSeq_cons_false h
      simp [stripFenceClosesAux, h1, ih t h2]

lemma stripImportLinesAux_no_import :
    ∀ (fuel : Nat) (l : List Char) (b : Bool), hasImportLineAux fuel l b = false →
      stripImportLinesAux fuel l b = l := by
  intro fuel
  induction fuel with
  | zero => intro l b _; rfl
  | succ f ih =>
    intro l b h
    cases l with
    | nil => rfl
    | cons c t =>
      by_cases hb : b = true
      · subst hb
        cases him : importMatchLen (c :: t) with
        | some k =>
          exfalso
          have : hasImportLineAux (f + 1) (c :: t) true = true := by
            simp [hasImportLineAux, him]
          rw [this] at h
          exact absurd h (by simp)
        | none =>
          have hrec : hasImportLineAux f t (c == '\n') = false := by
            have h' := h
            simp only [hasImportLineAux, him] at h'
            simpa using h'
          simp [stripImportLinesAux, him, ih t (c == '\n') hrec]
      · have hb' : b = false := by simpa using hb
        subst hb'
        have hrec : hasImportLineAux f t (c == '\n') = false := by
          have h' := h
          simp only [hasImportLineAux] at h'
          simpa using h'
        simp [stripImportLinesAux, ih t (c == '\n') hrec]

lemma step2_id {l : List Char} (h : leadingProseCond l = false) : step2 l = l := by
  simp [step2, h]

lemma step3_id {l : List Char} (h : trailingProseCond l = false) : step3 l = l := by
  simp [step3, h]

/-- Second-pass identity on a clean first-pass output (REACT path). -/
lemma react_pass2_id (parseOk : String → Bool) (x : String)
    (h1 : containsSeq (extractCode parseOk x SimType.REACT).data tick3 = false)
    (h2 : leadingProseCond (extractCode parseOk x SimType.REACT).data = false)
    (h3 : trailingProseCond (extractCode parseOk x SimType.REACT).data = false)
    (h4 : hasImportLine (extractCode parseOk x SimType.REACT).data = false) :
    extractCode parseOk (extractCode parseOk x SimType.REACT) SimType.REACT =
      extractCode parseOk x SimType.REACT := by
  have hydata : (extractCode parseOk x SimType.REACT).data =
      reactSteps (trimList x.data) := by
    simp only [extractCode]
  have hytrim : trimList (extractCode parseOk x SimType.REACT).data =
      (extractCode parseOk x SimType.REACT).data := by
    rw [hydata]
    unfold reactSteps
    exact trimList_idem _
  have hsteps : reactSteps (extractCode parseOk x SimType.REACT).data =
      (extractCode parseOk x SimType.REACT).data := by
    unfold reactSteps
    rw [fenceStep_of_no_ticks h1, step2_id h2, step3_id h3]
    unfold stripFenceOpens
    rw [stripFenceOpensAux_no_ticks _ _ _ h1]
    unfold stripFenceCloses
    rw [stripFenceClosesAux_no_ticks _ _ h1]
    unfold stripImportLines
    rw [stripImportLinesAux_no_import _ _ _ h4]
    exact hytrim
  have hunfold : extractCode parseOk (extractCode parseOk x SimType.REACT)
      SimType.REACT =
      ⟨reactSteps (trimList (extractCode parseOk x SimType.REACT).data)⟩ := by
    simp only [extractCode]
  rw [hunfold, hytrim, hsteps]

-- ─── Extractor lemmas (for C8): the command-list pattern match ─────────

lemma startsWithSeq_iff (l p : List Char) :
    startsWithSeq l p = true ↔ ∃ b, l = p ++ b := by
  induction p generalizing l with
  | nil =>
    simp only [startsWithSeq, List.nil_append]
    exact ⟨fun _ => ⟨l, rfl⟩, fun _ => trivial⟩
  | cons q qs ih =>
    cases l with
    | nil =>
      simp only [startsWithSeq]
      constructor
      · intro h; exact absurd h (by simp)
      · rintro ⟨b, hb⟩
        exact absurd hb (by simp)
    | cons a t =>
      simp only [startsWithSeq, Bool.and_eq_true, beq_iff_eq]
      constructor
      · rintro ⟨ha, hs⟩
        obtain ⟨b, hb⟩ := (ih t).mp hs
        exact ⟨b, by rw [ha, hb, List.cons_append]⟩
      · rintro ⟨b, hb⟩
        rw [List.cons_append] at hb
        injection hb with h1 h2
        exact ⟨h1, (ih t).mpr ⟨b, h2⟩⟩

lemma contains_iff_mem (l : List Char) (c : Char) :
    l.contains c = true ↔ c ∈ l := by
  simp [List.contains_eq_any_beq, List.any_eq_true]

lemma getLast?_mem {l : List Char} {c : Char} (h : l.getLast? = some c) :
    c ∈ l := by
  have hne : l ≠ [] := by intro he; rw [he] at h; simp at h
  rw [List.getLast?_eq_getLast l hne] at h
  have hm := List.getLast_mem hne
  injection h with h'
  exact h' ▸ hm

lemma commandsThenBrace_iff (l : List Char) :
    commandsThenBrace l = true ↔
      ∃ a b, l = a ++ commandsPat ++ b ∧ '}' ∈ b := by
  induction l with
  | nil =>
    constructor
    · intro h; exact absurd h (by simp [commandsThenBrace])
    · rintro ⟨a, b, hab, _⟩
      exfalso
      have hlen : ([] : List Char).length = (a ++ commandsPat ++ b).length := by
        rw [← hab]
      have hcp : commandsPat.length = 10 := rfl
      simp only [List.length_append, List.length_nil, hcp] at hlen
      omega
  | cons c t ih =>
    simp only [commandsThenBrace, Bool.or_eq_true]
    constructor
    · rintro (h | h)
      · simp only [Bool.and_eq_true] at h
        obtain ⟨hs, hc⟩ := h
        obtain ⟨b, hb⟩ := (startsWithSeq_iff _ _).mp hs
        refine ⟨[], b, by simpa using hb, ?_⟩
        rw [hb, List.drop_left] at hc
        exact (contains_iff_mem b '}').mp hc
      · obtain ⟨a, b, hab, hm⟩ := ih.mp h
        exact ⟨c :: a, b, by rw [hab, List.cons_append, List.cons_append], hm⟩
    · rintro ⟨a, b, hab, hm⟩
      cases a with
      | nil =>
        left
        simp only [List.nil_append] at hab
        simp only [Bool.and_eq_true]
        refine ⟨(startsWithSeq_iff _ _).mpr ⟨b, hab⟩, ?_⟩
        rw [hab, List.drop_left]
        exact (contains_iff_mem b '}').mpr hm
      | cons d a' =>
        right
        apply ih.mpr
        refine ⟨a', b, ?_, hm⟩
        rw [List.cons_append, List.cons_append] at hab
        injection hab with _ h2

lemma geoFirstBrace_decomp :
    ∀ (l : List Char) (idx i : Nat), geoFirstBrace l idx = some i →
      ∃ pre rest, l = pre ++ '{' :: rest ∧ idx + pre.length = i ∧
        commandsThenBrace rest = true := by
  intro l
  induction l with
  | nil => intro idx i h; exact absurd h (by simp [geoFirstBrace])
  | cons c t ih =>
    intro idx i h
    by_cases h1 : (c == '{' && commandsThenBrace t) = true
    · simp only [geoFirstBrace, h1, if_true, Option.some.injEq] at h
      simp only [Bool.and_eq_true, beq_iff_eq] at h1
      obtain ⟨hc, hcb⟩ := h1
      subst hc
      exact ⟨[], t, rfl, by simpa using h, hcb⟩
    · have h1' : (c == '{' && commandsThenBrace t) = false := by simpa using h1
      simp only [geoFirstBrace, h1', Bool.false_eq_true, if_false] at h
      obtain ⟨pre, rest, hdec, hlen, hcb⟩ := ih (idx + 1) i h
      refine ⟨c :: pre, rest, by rw [hdec, List.cons_append], ?_, hcb⟩
      simp only [List.length_cons]
      omega

lemma geoFirstBrace_here {c : Char} {rest : List Char} {idx : Nat}
    (h : (c == '{' && commandsThenBrace rest) = true) :
    geoFirstBrace (c :: rest) idx = some idx := by
  simp [geoFirstBrace, h]

lemma lastIndexOfChar_none {c : Char} :
    ∀ l : List Char, lastIndexOfChar c l = none → ¬ c ∈ l := by
  intro l
  induction l with
  | nil => intro _ hm; simp at hm
  | cons a t ih =>
    intro h hm
    simp only [lastIndexOfChar] at h
    cases hrec : lastIndexOfChar c t with
    | some i => rw [hrec] at h; exact absurd h (by simp)
    | none =>
      rw [hrec] at h
      by_cases ha : (a == c) = true
      · rw [if_pos ha] at h; exact absurd h (by simp)
      · have ha' : a ≠ c := by simpa using ha
        rcases List.mem_cons.mp hm with he | ht
        · exact ha' he.symm
        · exact ih hrec ht

lemma lastIndexOfChar_decomp {c : Char} :
    ∀ (l : List Char) (k : Nat), lastIndexOfChar c l = some k →
      ∃ l₁ l₂, l = l₁ ++ c :: l₂ ∧ l₁.length = k ∧ ¬ c ∈ l₂ := by
  intro l
  induction l with
  | nil => intro k h; exact absurd h (by simp [lastIndexOfChar])
  | cons a t ih =>
    intro k h
    simp only [lastIndexOfChar] at h
    cases hrec : lastIndexOfChar c t with
    | some i =>
      rw [hrec] at h
      simp only [Option.some.injEq] at h
      obtain ⟨l₁, l₂, hdec, hlen, hno⟩ := ih i hrec
      refine ⟨a :: l₁, l₂, by rw [hdec, List.cons_append], ?_, hno⟩
      simp only [List.length_cons]
      omega
    | none =>
      rw [hrec] at h
      by_cases ha : (a == c) = true
      · rw [if_pos ha] at h
        simp only [Option.some.injEq] at h
        have ha' : a = c := by simpa using ha
        subst ha'
        exact ⟨[], t, rfl, by simpa using h.symm ▸ rfl, lastIndexOfChar_none t hrec⟩
      · rw [if_neg ha] at h
        exact absurd h (by simp)

lemma lastIndexOfChar_getLast {c : Char} :
    ∀ (l : List Char), l.getLast? = some c →
      lastIndexOfChar c l = some (l.length - 1) := by
  intro l
  induction l with
  | nil => intro h; simp at h
  | cons a t ih =>
    intro h
    cases t with
    | nil =>
      simp only [List.getLast?_singleton, Option.some.injEq] at h
      subst h
      simp [lastIndexOfChar]
    | cons b u =>
      rw [List.getLast?_cons_cons] at h
      have hrec := ih h
      have hstep : lastIndexOfChar c (a :: b :: u) =
          match lastIndexOfChar c (b :: u) with
          | some i => some (i + 1)
          | none => if (a == c) = true then some 0 else none := rfl
      rw [hstep, hrec]
      simp only [Option.some.injEq, List.length_cons]
      omega

lemma append_cons_length_le {c : Char} {X Y l₁ l₂ : List Char}
    (h : X ++ c :: Y = l₁ ++ c :: l₂) (hno : ¬ c ∈ l₂) :
    X.length ≤ l₁.length := by
  rcases List.append_eq_append_iff.mp h with ⟨a', ha1, _⟩ | ⟨c', hc1, hc2⟩
  · rw [ha1, List.length_append]
    omega
  · cases c' with
    | nil =>
      rw [hc1]
      simp
    | cons e t' =>
      exfalso
      simp only [List.cons_append] at hc2
      injection hc2 with he hl2
      apply hno
      rw [hl2, he]
      exact List.mem_append_right t' (List.mem_cons_self _ _)

/-- A list that starts with `'{'`, ends with `'}'` and properly contains the
`"commands"` pattern is its own `geoMatch`. -/
lemma geoMatch_self {m : List Char}
    (hhead : m.head? = some '{')
    (hlast : m.getLast? = some '}')
    (hinf : ∃ A B, m = A ++ commandsPat ++ B ∧ A ≠ []) :
    geoMatch m = some m := by
  obtain ⟨A, B, hdec, hAne⟩ := hinf
  obtain ⟨d, A₀, hA⟩ : ∃ d A₀, A = d :: A₀ := by
    cases A with
    | nil => exact absurd rfl hAne
    | cons d A₀ => exact ⟨d, A₀, rfl⟩
  subst hA
  have hm : m = d :: ((A₀ ++ commandsPat) ++ B) := by
    rw [hdec, List.cons_append, List.cons_append]
  have hd : d = '{' := by
    rw [hm] at hhead
    simpa using hhead
  subst hd
  have hBne : B ≠ [] := by
    intro hB
    subst hB
    rw [hdec] at hlast
    simp only [List.append_nil] at hlast
    rw [List.getLast?_append] at hlast
    have hpl : commandsPat.getLast? = some '"' := by decide
    rw [hpl, Option.or_some] at hlast
    exact absurd hlast (by decide)
  have hBlast : B.getLast? = some '}' := by
    rw [hdec, List.getLast?_append] at hlast
    cases hB : B.getLast? with
    | none =>
      rw [List.getLast?_eq_getLast B hBne] at hB
      exact absurd hB (by simp)
    | some x =>
      rw [hB, Option.or_some] at hlast
      exact hlast
  have hBmem : '}' ∈ B := getLast?_mem hBlast
  have hcb : commandsThenBrace ((A₀ ++ commandsPat) ++ B) = true :=
    (commandsThenBrace_iff _).mpr ⟨A₀, B, rfl, hBmem⟩
  have hcb' : ('{' == '{' && commandsThenBrace ((A₀ ++ commandsPat) ++ B)) = true := by
    rw [hcb]
    rfl
  have hfb : geoFirstBrace m 0 = some 0 := by
    rw [hm]
    exact geoFirstBrace_here hcb'
  have hli : lastIndexOfChar '}' m = some (m.length - 1) :=
    lastIndexOfChar_getLast m hlast
  have hstep : geoMatch m = some ((m.drop 0).take (m.length - 1 - 0 + 1)) := by
    unfold geoMatch
    rw [hfb, hli]
  rw [hstep]
  have hmne : m ≠ [] := by rw [hm]; simp
  have hpos : 0 < m.length := List.length_pos.mpr hmne
  rw [List.drop_zero, show m.length - 1 - 0 + 1 = m.length from by omega,
    List.take_length]

/-- Structure of a successful `geoMatch` result: it starts with `'{'`, ends
with `'}'`, and properly contains the `"commands"` pattern. -/
lemma geoMatch_some_struct {cs m : List Char} (h : geoMatch cs = some m) :
    m.head? = some '{' ∧ m.getLast? = some '}' ∧
      ∃ A B, m = A ++ commandsPat ++ B ∧ A ≠ [] := by
  unfold geoMatch at h
  cases hf : geoFirstBrace cs 0 with
  | none => rw [hf] at h; exact absurd h (by simp)
  | some i =>
    rw [hf] at h
    cases hk : lastIndexOfChar '}' cs with
    | none => rw [hk] at h; exact absurd h (by simp)
    | some k =>
      rw [hk] at h
      simp only [Option.some.injEq] at h
      obtain ⟨pre, rest, hcs, hleni, hcb⟩ := geoFirstBrace_decomp cs 0 i hf
      have hprelen : pre.length = i := by omega
      obtain ⟨a, b₀, hrest, hbm⟩ := (commandsThenBrace_iff rest).mp hcb
      obtain ⟨b₁, b₂, hb₀⟩ := List.append_of_mem hbm
      obtain ⟨l₁, l₂, hcs2, hlenk, hno⟩ := lastIndexOfChar_decomp cs k hk
      have hX : (pre ++ '{' :: ((a ++ commandsPat) ++ b₁)) ++ '}' :: b₂ =
          l₁ ++ '}' :: l₂ := by
        rw [← hcs2, hcs, hrest, hb₀]
        simp [List.append_assoc, List.cons_append]
      have hle := append_cons_length_le hX hno
      have hcp : commandsPat.length = 10 := rfl
      have hXlen : (pre ++ '{' :: ((a ++ commandsPat) ++ b₁)).length =
          i + 1 + a.length + 10 + b₁.length := by
        simp [List.length_append, List.length_cons, hcp, hprelen]
        omega
      have hk_ge : i + 11 + a.length ≤ k := by
        rw [hXlen] at hle
        omega
      have hsplit : pre ++ '{' :: rest = l₁ ++ '}' :: l₂ := by
        rw [← hcs, ← hcs2]
      rcases List.append_eq_append_iff.mp hsplit with ⟨a', ha1, ha2⟩ | ⟨c', hc1, hc2⟩
      · cases a' with
        | nil =>
          exfalso
          simp only [List.nil_append] at ha2
          injection ha2 with hq _
          exact absurd hq (by decide)
        | cons d r₁ =>
          rw [List.cons_append] at ha2
          injection ha2 with hd hrest2
          subst hd
          have hr₁len : r₁.length = k - i - 1 := by
            have : l₁.length = pre.length + (r₁.length + 1) := by
              rw [ha1]
              simp [List.length_append, List.length_cons]
            omega
          have hdropi : cs.drop i = '{' :: rest := by
            rw [hcs, ← hprelen]
            exact List.drop_left pre _
          have hm : m = '{' :: rest.take (k - i) := by
            rw [← h, hdropi, List.take_succ_cons]
          have htk : rest.take (k - i) = r₁ ++ ['}'] := by
            rw [hrest2]
            have hki : k - i = r₁.length + 1 := by omega
            rw [hki, List.take_append_eq_append_take,
              List.take_of_length_le (by omega),
              show r₁.length + 1 - r₁.length = 1 from by omega]
            simp
          have hp1 : (a ++ commandsPat) <+: rest := ⟨b₀, hrest.symm⟩
          have hp2 : r₁ <+: rest := ⟨'}' :: l₂, hrest2.symm⟩
          have hlen_le : (a ++ commandsPat).length ≤ r₁.length := by
            have hap : (a ++ commandsPat).length = a.length + 10 := by
              simp [List.length_append, hcp]
            omega
          obtain ⟨w, hw⟩ := List.prefix_of_prefix_length_le hp1 hp2 hlen_le
          refine ⟨?_, ?_, ⟨'{' :: a, w ++ ['}'], ?_, by simp⟩⟩
          · rw [hm]; rfl
          · rw [hm, htk]
            have hconc : '{' :: (r₁ ++ ['}']) = ('{' :: r₁) ++ ['}'] := by simp
            rw [hconc, List.getLast?_concat]
          · rw [hm, htk, ← hw]
            simp [List.append_assoc, List.cons_append]
      · exfalso
        cases c' with
        | nil =>
          simp only [List.nil_append] at hc2
          injection hc2 with hq _
          exact absurd hq (by decide)
        | cons e t' =>
          have hplen : pre.length = l₁.length + (t'.length + 1) := by
            rw [hc1]
            simp [List.length_append, List.length_cons]
          omega

/-- Appending a nonempty tail with a known last element fixes `getLast?`. -/
lemma getLast?_append_of {P R : List Char} {x : Char}
    (hR : R.getLast? = some x) : (P ++ R).getLast? = some x := by
  rw [List.getLast?_append, hR, Option.or_some]

/-- Consing preserves a known last element. -/
lemma getLast?_cons_of {c x : Char} {R : List Char}
    (hR : R.getLast? = some x) : (c :: R).getLast? = some x := by
  rw [show c :: R = [c] ++ R from rfl]
  exact getLast?_append_of hR

/-- With an empty pending buffer, a non-comma head passes straight through
the trailing-comma replace. -/
lemma rcRun_cons_head {closeCh c : Char} {rest : List Char}
    (h : (c == ',') = false) :
    rcRun closeCh (c :: rest) [] = c :: rcRun closeCh rest [] := by
  simp [rcRun, h]

/-- A comma-free block passes through the replace unchanged (empty buffer
on entry). -/
lemma rcRun_plain_nil (closeCh : Char) :
    ∀ (w v : List Char), (∀ c ∈ w, (c == ',') = false) →
      rcRun closeCh (w ++ v) [] = w ++ rcRun closeCh v [] := by
  intro w
  induction w with
  | nil => intro v _; rfl
  | cons c w' ih =>
    intro v hw
    rw [List.cons_append, rcRun_cons_head (hw c (List.mem_cons_self c w')),
      ih v (fun d hd => hw d (List.mem_cons_of_mem c hd))]
    rfl

/-- The replace keeps a final `'}'` as the last character. -/
lemma rcRun_getLast (closeCh : Char) :
    ∀ (l pend : List Char), l.getLast? = some '}' →
      (rcRun closeCh l pend).getLast? = some '}' := by
  intro l
  induction l with
  | nil => intro pend h; simp at h
  | cons c rest ih =>
    intro pend h
    cases rest with
    | nil =>
      have hc : c = '}' := by simpa using h
      subst hc
      cases pend with
      | nil =>
        have hstep : rcRun closeCh ['}'] [] = ['}'] := by
          simp [rcRun]
        rw [hstep]
        rfl
      | cons p ps =>
        by_cases hcl : ('}' == closeCh) = true
        · have hstep : rcRun closeCh ['}'] (p :: ps) = [closeCh] := by
            simp [rcRun, hcl]
          rw [hstep]
          have hce : '}' = closeCh := by simpa using hcl
          rw [← hce]
          rfl
        · have hcl' : ('}' == closeCh) = false := by simpa using hcl
          have hstep : rcRun closeCh ['}'] (p :: ps) =
              (p :: ps).reverse ++ ['}'] := by
            simp [rcRun, hcl']
          rw [hstep, List.getLast?_concat]
    | cons b u =>
      rw [List.getLast?_cons_cons] at h
      cases pend with
      | nil =>
        by_cases hc : (c == ',') = true
        · have hstep : rcRun closeCh (c :: b :: u) [] =
              rcRun closeCh (b :: u) [','] := by
            simp [rcRun, hc]
          rw [hstep]
          exact ih _ h
        · have hc' : (c == ',') = false := by simpa using hc
          rw [rcRun_cons_head hc']
          exact getLast?_cons_of (ih [] h)
      | cons p ps =>
        by_cases hcl : (c == closeCh) = true
        · have hstep : rcRun closeCh (c :: b :: u) (p :: ps) =
              closeCh :: rcRun closeCh (b :: u) [] := by
            simp [rcRun, hcl]
          rw [hstep]
          exact getLast?_cons_of (ih [] h)
        · have hcl' : (c == closeCh) = false := by simpa using hcl
          by_cases hws : isJsWs c = true
          · have hstep : rcRun closeCh (c :: b :: u) (p :: ps) =
                rcRun closeCh (b :: u) (c :: p :: ps) := by
              simp [rcRun, hcl', hws]
            rw [hstep]
            exact ih _ h
          · have hws' : isJsWs c = false := by simpa using hws
            by_cases hc : (c == ',') = true
            · have hstep : rcRun closeCh (c :: b :: u) (p :: ps) =
                  (p :: ps).reverse ++ rcRun closeCh (b :: u) [','] := by
                simp [rcRun, hcl', hws', hc]
              rw [hstep]
              exact getLast?_append_of (ih _ h)
            · have hc' : (c == ',') = false := by simpa using hc
              have hstep : rcRun closeCh (c :: b :: u) (p :: ps) =
                  (p :: ps).reverse ++ c :: rcRun closeCh (b :: u) [] := by
                simp [rcRun, hcl', hws', hc']
              rw [hstep]
              exact getLast?_append_of (getLast?_cons_of (ih [] h))

/-- The `"commands"` pattern passes through the replace in one piece
(its characters are not commas, not whitespace, and its head is not the
closer). -/
lemma rcRun_pat_through (closeCh : Char) (hq : ('"' == closeCh) = false) :
    ∀ (v pend : List Char), rcRun closeCh (commandsPat ++ v) pend =
      pend.reverse ++ (commandsPat ++ rcRun closeCh v []) := by
  intro v pend
  cases pend with
  | nil =>
    rw [List.reverse_nil, List.nil_append]
    exact rcRun_plain_nil closeCh commandsPat v (by decide)
  | cons p ps =>
    have hws : isJsWs '"' = false := by decide
    have hcm : ('"' == ',') = false := by decide
    have hpat : commandsPat ++ v = '"' :: (("commands".data ++ ['"']) ++ v) := by
      simp [commandsPat, List.cons_append, List.append_assoc]
    rw [hpat]
    have hstep : rcRun closeCh ('"' :: (("commands".data ++ ['"']) ++ v)) (p :: ps) =
        (p :: ps).reverse ++ '"' :: rcRun closeCh (("commands".data ++ ['"']) ++ v) [] := by
      simp [rcRun, hq, hws, hcm]
    rw [hstep, rcRun_plain_nil closeCh _ v (by decide)]
    simp [commandsPat, List.cons_append, List.append_assoc]

/-- The replace preserves the presence of the `"commands"` pattern as an
infix. -/
lemma rcRun_infix (closeCh : Char) (hq : ('"' == closeCh) = false) :
    ∀ (u v pend : List Char), ∃ A B,
      rcRun closeCh ((u ++ commandsPat) ++ v) pend = (A ++ commandsPat) ++ B := by
  intro u
  induction u with
  | nil =>
    intro v pend
    refine ⟨pend.reverse, rcRun closeCh v [], ?_⟩
    rw [List.nil_append, rcRun_pat_through closeCh hq v pend]
    simp [List.append_assoc]
  | cons c u' ih =>
    intro v pend
    have hT : ((c :: u') ++ commandsPat) ++ v =
        c :: ((u' ++ commandsPat) ++ v) := by
      simp [List.cons_append]
    rw [hT]
    cases pend with
    | nil =>
      by_cases hc : (c == ',') = true
      · have hstep : rcRun closeCh (c :: ((u' ++ commandsPat) ++ v)) [] =
            rcRun closeCh ((u' ++ commandsPat) ++ v) [','] := by
          simp [rcRun, hc]
        obtain ⟨A, B, hAB⟩ := ih v [',']
        exact ⟨A, B, by rw [hstep, hAB]⟩
      · have hc' : (c == ',') = false := by simpa using hc
        obtain ⟨A, B, hAB⟩ := ih v []
        refine ⟨c :: A, B, ?_⟩
        rw [rcRun_cons_head hc', hAB]
        simp [List.cons_append]
    | cons p ps =>
      by_cases hcl : (c == closeCh) = true
      · have hstep : rcRun closeCh (c :: ((u' ++ commandsPat) ++ v)) (p :: ps) =
            closeCh :: rcRun closeCh ((u' ++ commandsPat) ++ v) [] := by
          simp [rcRun, hcl]
        obtain ⟨A, B, hAB⟩ := ih v []
        refine ⟨closeCh :: A, B, ?_⟩
        rw [hstep, hAB]
        simp [List.cons_append]
      · have hcl' : (c == closeCh) = false := by simpa using hcl
        by_cases hws : isJsWs c = true
        · have hstep : rcRun closeCh (c :: ((u' ++ commandsPat) ++ v)) (p :: ps) =
              rcRun closeCh ((u' ++ commandsPat) ++ v) (c :: p :: ps) := by
            simp [rcRun, hcl', hws]
          obtain ⟨A, B, hAB⟩ := ih v (c :: p :: ps)
          exact ⟨A, B, by rw [hstep, hAB]⟩
        · have hws' : isJsWs c = false := by simpa using hws
          by_cases hc : (c == ',') = true
          · have hstep : rcRun closeCh (c :: ((u' ++ commandsPat) ++ v)) (p :: ps) =
                (p :: ps).reverse ++ rcRun closeCh ((u' ++ commandsPat) ++ v) [','] := by
              simp [rcRun, hcl', hws', hc]
            obtain ⟨A, B, hAB⟩ := ih v [',']
            refine ⟨(p :: ps).reverse ++ A, B, ?_⟩
            rw [hstep, hAB]
            simp [List.append_assoc]
          · have hc' : (c == ',') = false := by simpa using hc
            have hstep : rcRun closeCh (c :: ((u' ++ commandsPat) ++ v)) (p :: ps) =
                (p :: ps).reverse ++ c :: rcRun closeCh ((u' ++ commandsPat) ++ v) [] := by
              simp [rcRun, hcl', hws', hc']
            obtain ⟨A, B, hAB⟩ := ih v []
            refine ⟨(p :: ps).reverse ++ (c :: A), B, ?_⟩
            rw [hstep, hAB]
            simp [List.append_assoc, List.cons_append]

/-- The trailing-comma repair preserves the three structural facts that
make a slice its own `geoMatch`. -/
lemma fixCommas_struct {m : List Char}
    (hh : m.head? = some '{') (hl : m.getLast? = some '}')
    (hinf : ∃ A B, m = A ++ commandsPat ++ B ∧ A ≠ []) :
    (fixCommas m).head? = some '{' ∧ (fixCommas m).getLast? = some '}' ∧
      ∃ A B, fixCommas m = A ++ commandsPat ++ B ∧ A ≠ [] := by
  obtain ⟨d, m₀, hm⟩ : ∃ d m₀, m = d :: m₀ := by
    cases m with
    | nil => simp at hh
    | cons d m₀ => exact ⟨d, m₀, rfl⟩
  have hd : d = '{' := by
    rw [hm] at hh
    simpa using hh
  subst hd
  have hbr : (Char.ofNat 123 == ',') = false := by decide
  have hhead : (fixCommas m).head? = some '{' := by
    unfold fixCommas
    rw [hm, rcRun_cons_head hbr, rcRun_cons_head hbr]
    rfl
  refine ⟨hhead, ?_, ?_⟩
  · unfold fixCommas
    exact rcRun_getLast ']' _ [] (rcRun_getLast '}' m [] hl)
  · obtain ⟨A, B, hAB, _⟩ := hinf
    obtain ⟨A₁, B₁, h1⟩ := rcRun_infix '}' (by decide) A B []
    obtain ⟨A₂, B₂, h2⟩ := rcRun_infix ']' (by decide) A₁ B₁ []
    have hfx : fixCommas m = A₂ ++ commandsPat ++ B₂ := by
      unfold fixCommas
      rw [hAB, h1, h2]
    refine ⟨A₂, B₂, hfx, ?_⟩
    intro hA₂
    rw [hfx, hA₂, List.nil_append,
      show commandsPat ++ B₂ = '"' :: ("commands".data ++ ['"'] ++ B₂) from by
        simp [commandsPat], List.head?_cons] at hhead
    injection hhead with hq
    exact absurd hq (by decide)

/-- Unfolding equation for the command-list branch of `extractCode`. -/
lemma extractCode_geo (parseOk : String → Bool) (raw : String) :
    extractCode parseOk raw SimType.GEOGEBRA =
      match geoMatch (trimList raw.data) with
      | some m => if parseOk ⟨m⟩ then ⟨m⟩
          else if parseOk ⟨fixCommas m⟩ then ⟨fixCommas m⟩
          else ⟨trimList raw.data⟩
      | none => ⟨trimList raw.data⟩ := rfl

/-- The command-list side of `extractCode` is idempotent for every parse
oracle and every input. -/
lemma geo_idem (parseOk : String → Bool) (x : String) :
    extractCode parseOk (extractCode parseOk x SimType.GEOGEBRA)
        SimType.GEOGEBRA =
      extractCode parseOk x SimType.GEOGEBRA := by
  cases hgm : geoMatch (trimList x.data) with
  | none =>
    have hy : extractCode parseOk x SimType.GEOGEBRA = ⟨trimList x.data⟩ := by
      rw [extractCode_geo, hgm]
    rw [hy, extractCode_geo,
      show trimList (String.mk (trimList x.data)).data = trimList x.data from
        trimList_idem x.data, hgm]
  | some m =>
    obtain ⟨hh, hl, hinf⟩ := geoMatch_some_struct hgm
    by_cases hp : parseOk ⟨m⟩ = true
    · have hy : extractCode parseOk x SimType.GEOGEBRA = ⟨m⟩ := by
        rw [extractCode_geo, hgm]
        simp [hp]
      have htm : trimList (String.mk m).data = m :=
        trimList_of_clean_ends m
          (fun c hc => by
            rw [hh] at hc
            injection hc with hc
            subst hc
            decide)
          (fun c hc => by
            rw [hl] at hc
            injection hc with hc
            subst hc
            decide)
      rw [hy, extractCode_geo, htm, geoMatch_self hh hl hinf]
      simp [hp]
    · by_cases hpf : parseOk ⟨fixCommas m⟩ = true
      · have hy : extractCode parseOk x SimType.GEOGEBRA = ⟨fixCommas m⟩ := by
          rw [extractCode_geo, hgm]
          simp [hp, hpf]
        obtain ⟨hh2, hl2, hinf2⟩ := fixCommas_struct hh hl hinf
        have htf : trimList (String.mk (fixCommas m)).data = fixCommas m :=
          trimList_of_clean_ends _
            (fun c hc => by
              rw [hh2] at hc
              injection hc with hc
              subst hc
              decide)
            (fun c hc => by
              rw [hl2] at hc
              injection hc with hc
              subst hc
              decide)
        rw [hy, extractCode_geo, htf, geoMatch_self hh2 hl2 hinf2]
        simp [hpf]
      · have hy : extractCode parseOk x SimType.GEOGEBRA = ⟨trimList x.data⟩ := by
          rw [extractCode_geo, hgm]
          simp [hp, hpf]
        rw [hy, extractCode_geo,
          show trimList (String.mk (trimList x.data)).data = trimList x.data from
            trimList_idem x.data, hgm]
        simp [hp, hpf]

-- ─── Claim C8 ──────────────────────────────────────────────────────────

set_option maxRecDepth 100000 in
/-- Claim C8 counterexample: `extractCode` is **not** idempotent on the
component dialect. On a sample whose import line hides the token
`function ` before the entry marker, the first pass removes the import
line, which unhides enough leading prose for the second pass's
leading-prose strip to fire, so the second pass changes the text again. -/
theorem C8_counterexample :
    extractCode (fun _ => true)
        (extractCode (fun _ => true) ⟨proseAfterImportSample⟩ SimType.REACT)
        SimType.REACT ≠
      extractCode (fun _ => true) ⟨proseAfterImportSample⟩ SimType.REACT := by
  decide

/-- Claim C8 (amended): the Extractor is idempotent on the command-list
dialect for every input and every parse oracle, and on the component
dialect whenever the first pass's output is already clean: no fence
marker remains, neither prose-strip condition holds on it, and it carries
no import line. (The unrestricted component-dialect statement is refuted
by `C8_counterexample`.) -/
theorem C8_extractor_idempotent (parseOk : String → Bool) (x : String)
    (h1 : containsSeq (extractCode parseOk x SimType.REACT).data tick3 = false)
    (h2 : leadingProseCond (extractCode parseOk x SimType.REACT).data = false)
    (h3 : trailingProseCond (extractCode parseOk x SimType.REACT).data = false)
    (h4 : hasImportLine (extractCode parseOk x SimType.REACT).data = false) :
    extractCode parseOk (extractCode parseOk x SimType.GEOGEBRA)
        SimType.GEOGEBRA =
      extractCode parseOk x SimType.GEOGEBRA ∧
    extractCode parseOk (extractCode parseOk x SimType.REACT) SimType.REACT =
      extractCode parseOk x SimType.REACT :=
  ⟨geo_idem parseOk x, react_pass2_id parseOk x h1 h2 h3 h4⟩

set_option maxRecDepth 100000 in
/-- Witness for C8 (amended): on an already-clean component source all
four cleanliness conditions hold, and both extraction passes agree on it
in both dialects. -/
theorem C8_witness :
    containsSeq (extractCode (fun _ => true) cleanComponentSample
      SimType.REACT).data tick3 = false ∧
    leadingProseCond (extractCode (fun _ => true) cleanComponentSample
      SimType.REACT).data = false ∧
    trailingProseCond (extractCode (fun _ => true) cleanComponentSample
      SimType.REACT).data = false ∧
    hasImportLine (extractCode (fun _ => true) cleanComponentSample
      SimType.REACT).data = false ∧
    (extractCode (fun _ => true)
        (extractCode (fun _ => true) cleanComponentSample SimType.GEOGEBRA)
        SimType.GEOGEBRA =
      extractCode (fun _ => true) cleanComponentSample SimType.GEOGEBRA ∧
    extractCode (fun _ => true)
        (extractCode (fun _ => true) cleanComponentSample SimType.REACT)
        SimType.REACT =
      extractCode (fun _ => true) cleanComponentSample SimType.REACT) :=
  ⟨by decide, by decide, by decide, by decide,
    C8_extractor_idempotent (fun _ => true) cleanComponentSample
      (by decide) (by decide) (by decide) (by decide)⟩

end NgIBL
